import Mathlib

/-!
Verification development for the gmaths limb-level kernel.

The definitions below are shallow embeddings of the C++ sources:
* `gmaths/integers/limb_type.hpp` (word primitives: multiply, divide),
* `gmaths/integers/limb_span/limb_span_base.hpp` (sign extension, options),
* `gmaths/integers/limb_span/limb_span_bitwise.hpp` (bitwise engine),
* `gmaths/integers/limb_span/limb_span_compare.hpp` (comparison engine),
* `gmaths/utility/basic_option.hpp` (bitmask utility).

Machine words (`limb_type`, 64-bit) are modelled as `Nat` with wrap-around
made explicit through `% 2 ^ 64`; half limbs (`limb_half_type`, 32-bit)
through `% 2 ^ 32`.  Fallible execution (out-of-bounds destination writes,
the compile-time assertion path) is modelled with `Option`.
-/

set_option maxHeartbeats 1000000

/-! ## Limb primitives (`limb_type.hpp`) -/

/-- Portable half-word path of `limb_mul(l, r, high_result)`
(`limb_type.hpp`, two-argument overload): full 64x64 multiplication.
Returns `(low, high)`; the C++ function returns the low half and stores
the high half through `high_result`. -/
def limb_mul (l r : Nat) : Nat × Nat :=
  let ld0 := l % 2 ^ 32
  let ld1 := (l >>> 32) % 2 ^ 32
  let rd0 := r % 2 ^ 32
  let rd1 := (r >>> 32) % 2 ^ 32
  let lo := ld0 * rd0 % 2 ^ 64
  let m1 := (ld0 * rd1 + (lo >>> 32)) % 2 ^ 64
  let m2 := (ld1 * rd0 + m1 % 2 ^ 32) % 2 ^ 64
  let hi := (ld1 * rd1 + (m2 >>> 32) + (m1 >>> 32)) % 2 ^ 64
  (lo % 2 ^ 32 ||| (m2 <<< 32) % 2 ^ 64, hi)

/-- Portable half-word path of `limb_mul(l, r, c, high_result)`
(one extra addend): `l * r + c` as a `(low, high)` pair. -/
def limb_mul_c (l r c : Nat) : Nat × Nat :=
  let ld0 := l % 2 ^ 32
  let ld1 := (l >>> 32) % 2 ^ 32
  let rd0 := r % 2 ^ 32
  let rd1 := (r >>> 32) % 2 ^ 32
  let cd0 := c % 2 ^ 32
  let cd1 := (c >>> 32) % 2 ^ 32
  let lo := (ld0 * rd0 + cd0) % 2 ^ 64
  let m1 := (ld0 * rd1 + cd1 + (lo >>> 32)) % 2 ^ 64
  let m2 := (ld1 * rd0 + m1 % 2 ^ 32) % 2 ^ 64
  let hi := (ld1 * rd1 + (m2 >>> 32) + (m1 >>> 32)) % 2 ^ 64
  (lo % 2 ^ 32 ||| (m2 <<< 32) % 2 ^ 64, hi)

/-- Portable half-word path of `limb_mul(l, r, c, d, high_result)`
(two extra addends): `l * r + c + d` as a `(low, high)` pair. -/
def limb_mul_cd (l r c d : Nat) : Nat × Nat :=
  let ld0 := l % 2 ^ 32
  let ld1 := (l >>> 32) % 2 ^ 32
  let rd0 := r % 2 ^ 32
  let rd1 := (r >>> 32) % 2 ^ 32
  let cd0 := c % 2 ^ 32
  let cd1 := (c >>> 32) % 2 ^ 32
  let dd0 := d % 2 ^ 32
  let dd1 := (d >>> 32) % 2 ^ 32
  let lo := (ld0 * rd0 + cd0 + dd0) % 2 ^ 64
  let m1 := (ld0 * rd1 + cd1 + dd1) % 2 ^ 64
  let m2 := (ld1 * rd0 + (lo >>> 32) + m1 % 2 ^ 32) % 2 ^ 64
  let hi := (ld1 * rd1 + (m2 >>> 32) + (m1 >>> 32)) % 2 ^ 64
  (lo % 2 ^ 32 ||| (m2 <<< 32) % 2 ^ 64, hi)

/-- The intermediate 64-bit sums of `limb_mul`'s half-word fallback, before
the `uint64` wrap is applied: `lo`, `m1`, `m2`, `hi` in computation order. -/
def limb_mul_sums (l r : Nat) : List Nat :=
  let ld0 := l % 2 ^ 32
  let ld1 := (l >>> 32) % 2 ^ 32
  let rd0 := r % 2 ^ 32
  let rd1 := (r >>> 32) % 2 ^ 32
  let lo := ld0 * rd0
  let m1 := ld0 * rd1 + (lo >>> 32)
  let m2 := ld1 * rd0 + m1 % 2 ^ 32
  [lo, m1, m2, ld1 * rd1 + (m2 >>> 32) + (m1 >>> 32)]

/-- The intermediate 64-bit sums of `limb_mul_c`'s half-word fallback,
before the `uint64` wrap is applied. -/
def limb_mul_c_sums (l r c : Nat) : List Nat :=
  let ld0 := l % 2 ^ 32
  let ld1 := (l >>> 32) % 2 ^ 32
  let rd0 := r % 2 ^ 32
  let rd1 := (r >>> 32) % 2 ^ 32
  let cd0 := c % 2 ^ 32
  let cd1 := (c >>> 32) % 2 ^ 32
  let lo := ld0 * rd0 + cd0
  let m1 := ld0 * rd1 + cd1 + (lo >>> 32)
  let m2 := ld1 * rd0 + m1 % 2 ^ 32
  [lo, m1, m2, ld1 * rd1 + (m2 >>> 32) + (m1 >>> 32)]

/-- The intermediate 64-bit sums of `limb_mul_cd`'s half-word fallback,
before the `uint64` wrap is applied. -/
def limb_mul_cd_sums (l r c d : Nat) : List Nat :=
  let ld0 := l % 2 ^ 32
  let ld1 := (l >>> 32) % 2 ^ 32
  let rd0 := r % 2 ^ 32
  let rd1 := (r >>> 32) % 2 ^ 32
  let cd0 := c % 2 ^ 32
  let cd1 := (c >>> 32) % 2 ^ 32
  let dd0 := d % 2 ^ 32
  let dd1 := (d >>> 32) % 2 ^ 32
  let lo := ld0 * rd0 + cd0 + dd0
  let m1 := ld0 * rd1 + cd1 + dd1
  let m2 := ld1 * rd0 + (lo >>> 32) + m1 % 2 ^ 32
  [lo, m1, m2, ld1 * rd1 + (m2 >>> 32) + (m1 >>> 32)]

/-- Portable path of `_detail_limb_type::limb_div_2_by_1(l, r, q)`:
divides the half-limb pair `l1:l0` by `r0`.  Returns
`(q0, new l0)` = (quotient written to `q[0]`, remainder written to `l[0]`). -/
def limb_div_2_by_1 (l0 l1 r0 : Nat) : Nat × Nat :=
  let tmp := l1 <<< 32 ||| l0
  (tmp / r0 % 2 ^ 32, tmp % r0 % 2 ^ 32)

/-- Embedding of `_detail_limb_type::limb_div_3_by_2(l, r, q)`:
divides `l2:l1:l0` by `r1:r0` (half limbs).  Returns
`(q0, new l0, new l1)` = (quotient digit written to `q[0]`, remainder
halves written back to `l[0]` and `l[1]`). -/
def limb_div_3_by_2 (l0 l1 l2 r0 r1 : Nat) : Nat × Nat × Nat :=
  if r1 ≤ l2 then
    -- edge case where the quotient is guaranteed to be its max value
    let q0 := (2 ^ 32 - 1) % 2 ^ 32
    let tmp := (2 ^ 32 - 1) * (r1 <<< 32 ||| r0) % 2 ^ 64
    let tmp := ((l1 <<< 32 ||| l0) + (2 ^ 64 - tmp % 2 ^ 64)) % 2 ^ 64
    (q0, tmp % 2 ^ 32, (tmp >>> 32) % 2 ^ 32)
  else
    -- limb_div_2_by_1(l + 1, r + 1, q)
    let (q0, l1') := limb_div_2_by_1 l1 l2 r1
    let ll := l1' <<< 32 ||| l0
    let lh := l2
    -- product of q[0] and r[1]:r[0]
    let cl := q0 * r0 % 2 ^ 64
    let tmp := ((cl >>> 32) + q0 * r1) % 2 ^ 64
    let cl := (cl % 2 ^ 32 ||| (tmp <<< 32) % 2 ^ 64) % 2 ^ 64
    let ch := (tmp >>> 32) % 2 ^ 32
    let rr := r1 <<< 32 ||| r0
    -- validation: reduce q[0] at most twice
    let (q0, cl, ch) :=
      if lh < ch ∨ (ch = lh ∧ ll < cl) then
        let q0 := (q0 + (2 ^ 32 - 1)) % 2 ^ 32
        let borrow := if cl < rr then 1 else 0
        let cl := (cl + (2 ^ 64 - rr)) % 2 ^ 64
        let ch := (ch + (2 ^ 32 - borrow)) % 2 ^ 32
        if lh < ch ∨ (ch = lh ∧ ll < cl) then
          let q0 := (q0 + (2 ^ 32 - 1)) % 2 ^ 32
          let borrow := if cl < rr then 1 else 0
          let cl := (cl + (2 ^ 64 - rr)) % 2 ^ 64
          let ch := (ch + (2 ^ 32 - borrow)) % 2 ^ 32
          (q0, cl, ch)
        else (q0, cl, ch)
      else (q0, cl, ch)
    -- calculate and store remainder
    let ll := (ll + (2 ^ 64 - cl)) % 2 ^ 64
    (q0, ll % 2 ^ 32, (ll >>> 32) % 2 ^ 32)

/-- Bit length of a natural number, computed with structural fuel so that
the kernel can evaluate it: `limbBitLength 64 x` is the position of the
highest set bit of `x` plus one (0 for `x = 0`). -/
def limbBitLength : Nat → Nat → Nat
  | 0, _ => 0
  | fuel + 1, x => if x = 0 then 0 else limbBitLength fuel (x / 2) + 1

/-- Embedding of `limb_lzcount`: number of leading zero bits of a 64-bit
limb (`std::countl_zero`). -/
def limb_lzcount (x : Nat) : Nat := 64 - limbBitLength 64 x

/-- Portable (no-intrinsics) path of `limb_div(l_high, l_low, r, remainder)`
from `limb_type.hpp`: divides `l_high:l_low` by `r`.  Returns
`(quotient, remainder)`.  The general (normalized) branch reproduces the
source verbatim, including the repeated assignment to `rd[0]` at
`limb_type.hpp:655-656` which leaves `rd[1] = 0`. -/
def limb_div (l_high l_low r : Nat) : Nat × Nat :=
  if r >>> 32 = 0 then
    -- fast version: 3 by 1 digit division, no normalization required
    let ld0 := l_low % 2 ^ 32
    let ld1 := (l_low >>> 32) % 2 ^ 32
    let ld2 := l_high % 2 ^ 32
    let rd0 := r % 2 ^ 32
    let (qd1, ld1') := limb_div_2_by_1 ld1 ld2 rd0
    let (qd0, ld0') := limb_div_2_by_1 ld0 ld1' rd0
    (qd1 <<< 32 ||| qd0, ld0')
  else
    -- slow version: full 4 by 2 digit division (Knuth, Algorithm D)
    let n := limb_lzcount r
    let l_high' := if n ≠ 0 then ((l_high <<< n) % 2 ^ 64) ||| l_low >>> (64 - n) else l_high
    let l_low' := if n ≠ 0 then (l_low <<< n) % 2 ^ 64 else l_low
    let r' := if n ≠ 0 then (r <<< n) % 2 ^ 64 else r
    let ld0 := l_low' % 2 ^ 32
    let ld1 := (l_low' >>> 32) % 2 ^ 32
    let ld2 := l_high' % 2 ^ 32
    let ld3 := (l_high' >>> 32) % 2 ^ 32
    let rd0 := r' % 2 ^ 32
    -- the source assigns rd[0] a second time here instead of rd[1]
    let rd0 := (r' >>> 32) % 2 ^ 32
    let rd1 := 0
    let (qd1, ld1', ld2') := limb_div_3_by_2 ld1 ld2 ld3 rd0 rd1
    let (qd0, ld0', ld1'') := limb_div_3_by_2 ld0 ld1' ld2' rd0 rd1
    (qd1 <<< 32 ||| qd0, (ld1'' <<< 32 ||| ld0') >>> n)

/-- Constant-evaluated execution of `limb_div`: the source routes constant
evaluation with `l_high >= r` into `_detail_limb_type::constexpr_assert_fail`,
a non-constexpr function, making the evaluation fail (ill-formed program)
instead of proceeding.  The failure is modelled as `none`. -/
def limb_div_constant_evaluated (l_high l_low r : Nat) : Option (Nat × Nat) :=
  if r ≤ l_high then none
  else some (limb_div l_high l_low r)

/-! ## Bitmask utility (`basic_option.hpp`) -/

/-- Value-level model of `gmaths::utility::basic_option::operator&`.
The source body is `return r &= *this;` where no identifier `r` is in
scope (the parameter is named `o`), so the member as written does not
compile; the model reads the body with the parameter `o` in place of
`r`, the evident intent: the copy `o` is combined in place with `*this`
and returned.  `a` plays the role of `*this`, `o` the parameter. -/
def basic_option_and (a o : Nat) : Nat := o &&& a

/-- Value-level model of `basic_option::operator|` (same undeclared-`r`
slip as `operator&`; modelled as `o |= *this`). -/
def basic_option_or (a o : Nat) : Nat := o ||| a

/-- Value-level model of `basic_option::operator^` (same undeclared-`r`
slip as `operator&`; modelled as `o ^= *this`). -/
def basic_option_xor (a o : Nat) : Nat := o ^^^ a

/-- Model of `basic_option::operator~` on the wrapped 64-bit
`unsigned long long`. -/
def basic_option_not (a : Nat) : Nat := a ^^^ (2 ^ 64 - 1)

/-- Model of `basic_option::operator bool`: true iff the value is
non-zero. -/
def basic_option_test (a : Nat) : Bool := a != 0

/-- Flag constants from `limb_span_base.hpp`. -/
def left_signed_option : Nat := 0x1

def right_signed_option : Nat := 0x10

def left_mutable_option : Nat := 0x2

def right_mutable_option : Nat := 0x20

def restrict_left_right_option : Nat := 0x1000

def restrict_dest_left_option : Nat := 0x2000

def restrict_dest_right_option : Nat := 0x4000

def branchless_option : Nat := 0x100

def no_overflow_option : Nat := 0x200

/-- Model of the flag tests `static_cast<bool>(Opt & some_option)` used by
the dispatch functions in `limb_span_bitwise.hpp` / `limb_span_compare.hpp`. -/
def limb_span_option_flag (opt flag : Nat) : Bool :=
  basic_option_test (basic_option_and opt flag)

/-! ## Sign extension (`limb_span_base.hpp`) -/

/-- Embedding of `limb_span_sign_extension<Signed>(arg)`: all-ones if the
view is interpreted signed, is non-empty and its most significant limb has
the top bit set (`(signed_limb_type)arg.back() >> 63` as a limb), else 0. -/
def limb_span_sign_extension (signed : Bool) (arg : List Nat) : Nat :=
  match signed, arg.getLast? with
  | true, some x => if 2 ^ 63 ≤ x then 2 ^ 64 - 1 else 0
  | _, _ => 0

/-! ## Bitwise engine (`limb_span_bitwise.hpp`)

Destination views are modelled as a window `DSpan` (offset plus length)
into a destination buffer (a `List Nat`); operand views are the lists of
their limbs.  Every destination write goes through `spanWrite`, which
fails (`none`) if any written index would fall outside the window or the
buffer, and every operand read is bounds-checked by the unroll helpers;
`none` therefore models an out-of-bounds access (undefined behavior in
the C++ source). -/

/-- Destination window: `off` is the index of the first limb of the view
inside the destination buffer; `len` is the view's length. -/
structure DSpan where
  off : Nat
  len : Nat

/-- Overwrites `buf[p]`, `buf[p+1]`, ... with the values `vs` (the
unchecked core of a destination write). -/
def setSeq : List Nat → Nat → List Nat → List Nat
  | buf, _, [] => buf
  | buf, p, v :: vs => setSeq (buf.set p v) (p + 1) vs

/-- Bounds-checked destination write: writes `vals` into the window `s`
starting at window index `i`. -/
def spanWrite (buf : List Nat) (s : DSpan) (i : Nat) (vals : List Nat) : Option (List Nat) :=
  if s.off + s.len ≤ buf.length ∧ i + vals.length ≤ s.len then
    some (setSeq buf (s.off + i) vals)
  else none

/-- Model of `std::fill(d.begin() + i, d.end(), c)` on the window `s`. -/
def spanFillFrom (buf : List Nat) (s : DSpan) (i c : Nat) : Option (List Nat) :=
  spanWrite buf s i (List.replicate (s.len - i) c)

/-- The four unary functor structs `unary_one`, `unary_zero`,
`unary_neutral`, `unary_not`.  They are modelled as an inductive type
because the engine branches on the functor's identity
(`std::is_same_v<Func, unary_one>` etc.). -/
inductive UOp
  | one
  | zero
  | neutral
  | not
deriving DecidableEq

/-- Evaluation of a unary functor on a 64-bit limb. -/
def UOp.eval : UOp → Nat → Nat
  | .one, _ => 2 ^ 64 - 1
  | .zero, _ => 0
  | .neutral, a => a
  | .not, a => a ^^^ (2 ^ 64 - 1)

/-- The ten binary functor structs `binary_and` ... `binary_geq`. -/
inductive BOp
  | and
  | nand
  | or
  | nor
  | xor
  | xnor
  | less
  | greater
  | leq
  | geq
deriving DecidableEq

/-- Evaluation of a binary functor on two 64-bit limbs (`operator()`). -/
def BOp.eval : BOp → Nat → Nat → Nat
  | .and, l, r => l &&& r
  | .nand, l, r => (l &&& r) ^^^ (2 ^ 64 - 1)
  | .or, l, r => l ||| r
  | .nor, l, r => (l ||| r) ^^^ (2 ^ 64 - 1)
  | .xor, l, r => l ^^^ r
  | .xnor, l, r => (l ^^^ r) ^^^ (2 ^ 64 - 1)
  | .less, l, r => (l ^^^ (2 ^ 64 - 1)) &&& r
  | .greater, l, r => l &&& (r ^^^ (2 ^ 64 - 1))
  | .leq, l, r => (l ^^^ (2 ^ 64 - 1)) ||| r
  | .geq, l, r => l ||| (r ^^^ (2 ^ 64 - 1))

/-- The `bind_one` member typedef of each binary functor struct: the
collapsed form used when the other operand is constant all-ones. -/
def BOp.bind_one : BOp → UOp
  | .and => .neutral
  | .nand => .not
  | .or => .one
  | .nor => .zero
  | .xor => .not
  | .xnor => .neutral
  | .less => .not
  | .greater => .zero
  | .leq => .one
  | .geq => .neutral

/-- The `bind_zero` member typedef of each binary functor struct: the
collapsed form used when the other operand is constant zero. -/
def BOp.bind_zero : BOp → UOp
  | .and => .zero
  | .nand => .one
  | .or => .neutral
  | .nor => .not
  | .xor => .neutral
  | .xnor => .not
  | .less => .zero
  | .greater => .neutral
  | .leq => .not
  | .geq => .one

/-- The `flip` member typedef of each binary functor struct, exactly as
written in the source; note `binary_greater::flip` is `binary_greater`
itself (`limb_span_bitwise.hpp:96`), not `binary_less`. -/
def BOp.flip : BOp → BOp
  | .and => .and
  | .nand => .nand
  | .or => .or
  | .nor => .nor
  | .xor => .xor
  | .xnor => .xnor
  | .less => .greater
  | .greater => .greater
  | .leq => .geq
  | .geq => .leq

/-- Embedding of `unary_unroll_helper<N>(d, r, f, n)`: reads `n` limbs
from the operand, applies `f` element-wise and writes `n` limbs to the
destination at window index `dpos`. -/
def unary_unroll_helper (f : Nat → Nat) (buf : List Nat) (s : DSpan) (dpos : Nat)
    (r : List Nat) (n : Nat) : Option (List Nat) :=
  if n ≤ r.length then spanWrite buf s dpos ((r.take n).map f) else none

/-- Embedding of `binary_unroll_helper<N>(d, l, r, f, n)` (two operand
iterators). -/
def binary_unroll_helper (f : Nat → Nat → Nat) (buf : List Nat) (s : DSpan) (dpos : Nat)
    (l r : List Nat) (n : Nat) : Option (List Nat) :=
  if n ≤ l.length ∧ n ≤ r.length then
    spanWrite buf s dpos (List.zipWith f (l.take n) (r.take n))
  else none

/-- Embedding of `binary_unroll_helper<N>(d, l, r, f, n)` for a scalar
right operand. -/
def binary_unroll_helper_scalar (f : Nat → Nat → Nat) (buf : List Nat) (s : DSpan)
    (dpos : Nat) (l : List Nat) (r : Nat) (n : Nat) : Option (List Nat) :=
  if n ≤ l.length then spanWrite buf s dpos ((l.take n).map (fun a => f a r)) else none

/-- One of the fixed-chunk loops of `unary_unroll`: runs
`unary_unroll_helper` `iters` times with batch size `chunk`, advancing the
destination position and the operand iterator each time. -/
def unary_unroll_loop (chunk : Nat) (f : Nat → Nat) (s : DSpan) :
    Nat → List Nat → Nat → List Nat → Option (List Nat × Nat × List Nat)
  | 0, buf, dpos, r => some (buf, dpos, r)
  | iters + 1, buf, dpos, r => do
    let buf' ← unary_unroll_helper f buf s dpos r chunk
    unary_unroll_loop chunk f s iters buf' (dpos + chunk) (r.drop chunk)

/-- Embedding of `unary_unroll<N>(d, r, f, count)`: batches of 16, then
batches of 4, then a 0-3 limb remainder. -/
def unary_unroll (f : Nat → Nat) (buf : List Nat) (s : DSpan) (r : List Nat)
    (count : Nat) : Option (List Nat) := do
  let (buf1, dpos1, r1) ← unary_unroll_loop 16 f s (count / 16) buf 0 r
  let (buf2, dpos2, r2) ← unary_unroll_loop 4 f s (count % 16 / 4) buf1 dpos1 r1
  unary_unroll_helper f buf2 s dpos2 r2 (count % 16 % 4)

/-- One of the fixed-chunk loops of `binary_unroll` (two operand
iterators). -/
def binary_unroll_loop (chunk : Nat) (f : Nat → Nat → Nat) (s : DSpan) :
    Nat → List Nat → Nat → List Nat → List Nat → Option (List Nat × Nat × List Nat × List Nat)
  | 0, buf, dpos, l, r => some (buf, dpos, l, r)
  | iters + 1, buf, dpos, l, r => do
    let buf' ← binary_unroll_helper f buf s dpos l r chunk
    binary_unroll_loop chunk f s iters buf' (dpos + chunk) (l.drop chunk) (r.drop chunk)

/-- Embedding of `binary_unroll<N>(d, l, r, f, count)`. -/
def binary_unroll (f : Nat → Nat → Nat) (buf : List Nat) (s : DSpan) (l r : List Nat)
    (count : Nat) : Option (List Nat) := do
  let (buf1, dpos1, l1, r1) ← binary_unroll_loop 16 f s (count / 16) buf 0 l r
  let (buf2, dpos2, l2, r2) ← binary_unroll_loop 4 f s (count % 16 / 4) buf1 dpos1 l1 r1
  binary_unroll_helper f buf2 s dpos2 l2 r2 (count % 16 % 4)

/-- One of the fixed-chunk loops of `binary_unroll` for a scalar right
operand. -/
def binary_unroll_scalar_loop (chunk : Nat) (f : Nat → Nat → Nat) (s : DSpan) (r : Nat) :
    Nat → List Nat → Nat → List Nat → Option (List Nat × Nat × List Nat)
  | 0, buf, dpos, l => some (buf, dpos, l)
  | iters + 1, buf, dpos, l => do
    let buf' ← binary_unroll_helper_scalar f buf s dpos l r chunk
    binary_unroll_scalar_loop chunk f s r iters buf' (dpos + chunk) (l.drop chunk)

/-- Embedding of `binary_unroll<N>(d, l, r, f, count)` for a scalar right
operand. -/
def binary_unroll_scalar (f : Nat → Nat → Nat) (buf : List Nat) (s : DSpan) (l : List Nat)
    (r : Nat) (count : Nat) : Option (List Nat) := do
  let (buf1, dpos1, l1) ← binary_unroll_scalar_loop 16 f s r (count / 16) buf 0 l
  let (buf2, dpos2, l2) ← binary_unroll_scalar_loop 4 f s r (count % 16 / 4) buf1 dpos1 l1
  binary_unroll_helper_scalar f buf2 s dpos2 l2 r (count % 16 % 4)

/-- Embedding of `unary<RSigned>(d, r, f)` (`limb_span_bitwise.hpp:250`):
constant functors fill the whole destination; the pass-through functor
copies `min(|d|, |r|)` limbs (and, exactly as in the source, does not
touch the remaining destination limbs); any other functor is applied
element-wise and the destination tail beyond `|r|` is filled with the
functor applied to the operand's sign extension. -/
def unary (rs : Bool) (buf : List Nat) (d : DSpan) (r : List Nat) (f : UOp) :
    Option (List Nat) :=
  match f with
  | .one => spanFillFrom buf d 0 (UOp.eval .one 0)
  | .zero => spanFillFrom buf d 0 (UOp.eval .zero 0)
  | .neutral => spanWrite buf d 0 (r.take (min d.len r.length))
  | .not => do
    let buf1 ← unary_unroll (UOp.eval .not) buf d r (min d.len r.length)
    if d.len ≤ r.length then some buf1
    else spanFillFrom buf1 d r.length (UOp.eval .not (limb_span_sign_extension rs r))

/-- Embedding of the scalar-right overload
`binary<Branchless, LSigned, RSigned>(d, l, r, f)`
(`limb_span_bitwise.hpp:290`): the scalar `r` is an operand's
sign-extension limb.  With `RSigned` false it collapses to `bind_zero`;
otherwise, without the branchless option, it tests `r` at run time and
collapses to `bind_one`/`bind_zero`; with the branchless option it applies
the two-argument functor uniformly. -/
def binary_scalar (bl ls rs : Bool) (buf : List Nat) (d : DSpan) (l : List Nat)
    (r : Nat) (f : BOp) : Option (List Nat) :=
  if !rs then unary ls buf d l f.bind_zero
  else if !bl then
    if r ≠ 0 then unary ls buf d l f.bind_one
    else unary ls buf d l f.bind_zero
  else do
    let buf1 ← binary_unroll_scalar f.eval buf d l r (min d.len l.length)
    if d.len ≤ l.length then some buf1
    else spanFillFrom buf1 d l.length (f.eval (limb_span_sign_extension ls l) r)

/-- Embedding of
`binary<Branchless, LSigned, RSigned>(d, l, r, f)`
(`limb_span_bitwise.hpp:337`): element-wise over the common prefix, then
the remaining destination region is handled against the exhausted
operand's sign extension (through the scalar-right overload, with the
`flip` functor when the left operand is the shorter one), or filled with
`f` of both sign extensions when the operands have equal length. -/
def binary (bl ls rs : Bool) (buf : List Nat) (d : DSpan) (l r : List Nat) (f : BOp) :
    Option (List Nat) := do
  let minSize := min d.len (min l.length r.length)
  let buf1 ← binary_unroll f.eval buf d l r minSize
  if d.len ≤ minSize then some buf1
  else if r.length < l.length then
    if r.length ≤ d.len then
      binary_scalar bl ls rs buf1 ⟨d.off + r.length, d.len - r.length⟩ (l.drop r.length)
        (limb_span_sign_extension rs r) f
    else none
  else if l.length < r.length then
    if l.length ≤ d.len then
      binary_scalar bl rs ls buf1 ⟨d.off + l.length, d.len - l.length⟩ (r.drop l.length)
        (limb_span_sign_extension ls l) f.flip
    else none
  else
    spanFillFrom buf1 d l.length
      (f.eval (limb_span_sign_extension ls l) (limb_span_sign_extension rs r))

/-- Embedding of `unary_dispatch<Opt>(d, r, f)` with the `RSigned` flag
already extracted from the option bitset (see `limb_span_option_flag`);
the destination window is the whole destination buffer. -/
def unary_dispatch (rs : Bool) (buf : List Nat) (r : List Nat) (f : UOp) :
    Option (List Nat) :=
  unary rs buf ⟨0, buf.length⟩ r f

/-- Embedding of `binary_dispatch<Opt>(d, l, r, f)` with the three flags
already extracted from the option bitset. -/
def binary_dispatch (bl ls rs : Bool) (buf : List Nat) (l r : List Nat) (f : BOp) :
    Option (List Nat) :=
  binary bl ls rs buf ⟨0, buf.length⟩ l r f

/-- Embedding of the public entry point `limb_span_bitand<Opt>(d, l, r)`. -/
def limb_span_bitand (bl ls rs : Bool) (buf : List Nat) (l r : List Nat) :
    Option (List Nat) :=
  binary_dispatch bl ls rs buf l r .and

/-- Embedding of the public entry point `limb_span_bitnot<Opt>(d, r)`. -/
def limb_span_bitnot (rs : Bool) (buf : List Nat) (r : List Nat) : Option (List Nat) :=
  unary_dispatch rs buf r .not

/-! ## Comparison engine (`limb_span_compare.hpp`)

The dynamic-extent instantiation is embedded: every `if constexpr`
condition that tests `std::dynamic_extent` is true there.  The reverse
iterators (`rbegin`/`rend`) walk the limbs most significant first, which
is modelled by recursion over the reversed lists. -/

/-- Value of a limb reinterpreted as `signed_limb_type` (64-bit two's
complement). -/
def signed_limb_val (x : Nat) : Int :=
  if x < 2 ^ 63 then (x : Int) else (x : Int) - 2 ^ 64

/-- Three-way comparison of two integers (`operator<=>` on
`signed_limb_type` values). -/
def ordCmpInt (a b : Int) : Ordering :=
  if a < b then .lt else if b < a then .gt else .eq

/-- Three-way comparison of two limbs (`operator<=>` on `limb_type`
values). -/
def ordCmpNat (a b : Nat) : Ordering :=
  if a < b then .lt else if b < a then .gt else .eq

/-- Model of `0 <=> ord`: inverts a three-way comparison result, as in the
operand-swapping public entry points. -/
def ordInvert : Ordering → Ordering
  | .lt => .gt
  | .eq => .eq
  | .gt => .lt

/-- Model of the trailing pairwise loop of `compare_promoted`: walk two
equally long most-significant-first limb lists, deciding at the first
unequal pair with an unsigned limb comparison. -/
def cmpPairsU : List Nat → List Nat → Ordering
  | x :: xs, y :: ys => if x ≠ y then ordCmpNat x y else cmpPairsU xs ys
  | _, _ => .eq

/-- Model of the high-region loop of `compare_promoted`: compare each limb
(most significant first) against the shorter operand's sign-extension
constant, deciding at the first inequality with an unsigned limb
comparison. -/
def cmpConstU (c : Nat) : List Nat → Ordering
  | [] => .eq
  | x :: xs => if x ≠ c then ordCmpNat x c else cmpConstU c xs

/-- Signed limb comparison
(`static_cast<signed_limb_type>(a) <=> static_cast<signed_limb_type>(b)`). -/
def signedCmp (x y : Nat) : Ordering :=
  ordCmpInt (signed_limb_val x) (signed_limb_val y)

/-- Embedding of `_detail_limb_span_compare::compare_promoted<LSigned,
RSigned>(l, r)` (`limb_span_compare.hpp:17`), which requires
`l.size() >= r.size()`.  When `l` is strictly longer, the walk starts with
one signed comparison of `l`'s top limb against `r`'s sign extension iff
`LSigned`; when the lengths are equal it starts with one signed comparison
of the two top limbs iff `LSigned && RSigned`; all remaining limbs compare
unsigned. -/
def compare_promoted (ls rs : Bool) (l r : List Nat) : Ordering :=
  if l.length = 0 then .eq
  else if r.length < l.length then
    if ls then
      match l.reverse with
      | [] => .eq
      | x :: ltl =>
        if x ≠ limb_span_sign_extension rs r then
          signedCmp x (limb_span_sign_extension rs r)
        else
          match cmpConstU (limb_span_sign_extension rs r)
              (ltl.take (l.length - r.length - 1)) with
          | .eq => cmpPairsU (ltl.drop (l.length - r.length - 1)) r.reverse
          | o => o
    else
      match cmpConstU (limb_span_sign_extension rs r)
          (l.reverse.take (l.length - r.length)) with
      | .eq => cmpPairsU (l.reverse.drop (l.length - r.length)) r.reverse
      | o => o
  else
    if ls && rs then
      match l.reverse, r.reverse with
      | x :: ltl, y :: rtl => if x ≠ y then signedCmp x y else cmpPairsU ltl rtl
      | _, _ => .eq
    else cmpPairsU l.reverse r.reverse

/-- Embedding of `_detail_limb_span_compare::compare_infinite<LSigned,
RSigned>(l, r)` (`limb_span_compare.hpp:59`), which requires
`l.size() >= r.size()`: when the signedness flags differ (for dynamic
extents) the two sign-extension constants are first compared as signed
values, and only an inconclusive result falls through to promoted
comparison. -/
def compare_infinite (ls rs : Bool) (l r : List Nat) : Ordering :=
  if ls ≠ rs then
    if signed_limb_val (limb_span_sign_extension ls l) ≠
        signed_limb_val (limb_span_sign_extension rs r) then
      ordCmpInt (signed_limb_val (limb_span_sign_extension ls l))
        (signed_limb_val (limb_span_sign_extension rs r))
    else compare_promoted ls rs l r
  else compare_promoted ls rs l r

/-- Embedding of the public entry point
`limb_span_compare_promoted<Opt>(l, r)` with the two signedness flags
already extracted from the option bitset: operands are swapped (and the
result inverted, `0 <=> ...`) when the right one is longer. -/
def limb_span_compare_promoted (ls rs : Bool) (l r : List Nat) : Ordering :=
  if r.length ≤ l.length then compare_promoted ls rs l r
  else ordInvert (compare_promoted rs ls r l)

/-- Embedding of the public entry point
`limb_span_compare_infinite<Opt>(l, r)` with the two signedness flags
already extracted from the option bitset. -/
def limb_span_compare_infinite (ls rs : Bool) (l r : List Nat) : Ordering :=
  if r.length ≤ l.length then compare_infinite ls rs l r
  else ordInvert (compare_infinite rs ls r l)

/-! ## Mathematical reading of a limb view

These definitions express the specified meaning of a view (spec section 3:
unsigned value, and two's-complement value with infinite sign extension);
the comparison theorems relate the engine to them. -/

/-- Unsigned value of a view, least significant limb first. -/
def uval : List Nat → Nat
  | [] => 0
  | x :: xs => x + 2 ^ 64 * uval xs

/-- Unsigned value of a most-significant-first limb list. -/
def uvalM : List Nat → Nat
  | [] => 0
  | x :: xs => x * 2 ^ (64 * xs.length) + uvalM xs

/-- Whether a view read under interpretation `s` denotes a negative
number: signed interpretation, non-empty, top bit of the most significant
limb set. -/
def limbsNeg (s : Bool) (v : List Nat) : Bool :=
  s && (match v.getLast? with
        | some x => decide (2 ^ 63 ≤ x)
        | none => false)

/-- Integer value of a view under interpretation `s`: the unsigned sum,
minus `2 ^ (64 n)` when the view denotes a negative two's-complement
number. -/
def ival (s : Bool) (v : List Nat) : Int :=
  if limbsNeg s v then (uval v : Int) - 2 ^ (64 * v.length) else (uval v : Int)

/-- All limbs of a view are 64-bit values. -/
def Limbs64 (v : List Nat) : Prop := ∀ x ∈ v, x < 2 ^ 64

/-! ## Helper lemmas -/

/-- Combining a low half with a shifted high half by bitwise or is plain
addition (the two halves occupy disjoint bit ranges). -/
theorem lor_low_high (x y : Nat) :
    x % 2 ^ 32 ||| (y <<< 32) % 2 ^ 64 = x % 2 ^ 32 + y % 2 ^ 32 * 2 ^ 32 := by
  have hx : x % 2 ^ 32 < 2 ^ 32 := Nat.mod_lt _ (by norm_num)
  have h1 : (y <<< 32) % 2 ^ 64 = y % 2 ^ 32 * 2 ^ 32 := by
    rw [Nat.shiftLeft_eq, show (2 : Nat) ^ 64 = 2 ^ 32 * 2 ^ 32 by norm_num,
      Nat.mul_mod_mul_right]
  rw [h1, Nat.lor_comm, show y % 2 ^ 32 * 2 ^ 32 = 2 ^ 32 * (y % 2 ^ 32) by ring,
    ← Nat.mul_add_lt_is_or hx]
  ring

/-! ## Claim theorems -/

/-- C1 (counterexample): on the portable path, for the limb triple
`l_high = 1`, `l_low = 0`, `r = 2 ^ 63` (a divisor whose upper 32-bit half
is non-zero, taking the general normalized path), `limb_div` returns
quotient `2 ^ 64 - 1` and remainder `2 ^ 31`, violating
`q * r + rem = l_high * 2 ^ 64 + l_low ∧ rem < r` (which would force
`q = 2`, `rem = 0`). -/
theorem limb_div_general_path_counterexample :
    limb_div 1 0 (2 ^ 63) = (2 ^ 64 - 1, 2 ^ 31) ∧
    ¬ ((limb_div 1 0 (2 ^ 63)).1 * 2 ^ 63 + (limb_div 1 0 (2 ^ 63)).2 =
        1 * 2 ^ 64 + 0 ∧ (limb_div 1 0 (2 ^ 63)).2 < 2 ^ 63) := by
  constructor
  · decide
  · decide

/-- C5 (counterexample): the `flip` typedef of the AND-NOT functor
`binary_greater` is `binary_greater` itself, not the argument-swapped
operator `binary_less`: at `l = 1`, `r = 0` the flipped functor returns
`1` while `op(r, l) = greater(0, 1) = 0`. -/
theorem binary_greater_flip_counterexample :
    BOp.flip .greater = .greater ∧
    BOp.eval (BOp.flip .greater) 1 0 = 1 ∧
    BOp.eval .greater 0 1 = 0 := by
  decide

/-- C6: for left view `[0xFFFFFFFFFFFFFFFF]` (signed, value -1) and right
view `[0x00, 0x01]` (unsigned, value `2 ^ 64`), promoted comparison
reports greater and infinite comparison reports less. -/
theorem compare_promoted_infinite_divergence :
    limb_span_compare_promoted true false [2 ^ 64 - 1] [0, 1] = .gt ∧
    limb_span_compare_infinite true false [2 ^ 64 - 1] [0, 1] = .lt := by
  decide

/-- C3 (counterexample): with destination `[9, 9, 9]`, left view
`[0xFFFFFFFFFFFFFFFF]` (signed) and right view `[1, 2]` (unsigned),
`limb_span_bitand` leaves `d[2] = 9` without the branchless option (the
`unary_neutral` collapsed path copies without filling the tail) but
writes `d[2] = 0` with it: the two settings yield different final
destination contents. -/
theorem limb_span_bitand_branchless_difference :
    limb_span_bitand false true false [9, 9, 9] [2 ^ 64 - 1] [1, 2] = some [1, 2, 9] ∧
    limb_span_bitand true true false [9, 9, 9] [2 ^ 64 - 1] [1, 2] = some [1, 2, 0] ∧
    limb_span_bitand false true false [9, 9, 9] [2 ^ 64 - 1] [1, 2] ≠
      limb_span_bitand true true false [9, 9, 9] [2 ^ 64 - 1] [1, 2] := by
  refine ⟨by decide, by decide, by decide⟩

/-- C4 (counterexample): with the branchless flag clear, destination
length 3 (initial contents `[9, 9, 9]`), left `[0xFFFFFFFFFFFFFFFF]`
(signed), right `[1, 2]` (unsigned), `limb_span_bitand` produces
`[1, 2, 9]`: index 2 keeps its old value instead of the claimed
`right`'s sign-extension word 0. -/
theorem limb_span_bitand_tail_not_filled :
    limb_span_bitand false true false [9, 9, 9] [2 ^ 64 - 1] [1, 2] = some [1, 2, 9] ∧
    some [1, 2, 9] ≠ some [1, 2, (0 : Nat)] := by
  refine ⟨by decide, by decide⟩

/-- C9: in a constant-evaluated context, `limb_div` with `l_high >= r`
takes the error branch (no quotient is produced), and under the
precondition `l_high < r` that branch is unreachable. -/
theorem limb_div_constant_evaluated_guard (l_high l_low r : Nat) :
    (r ≤ l_high → limb_div_constant_evaluated l_high l_low r = none) ∧
    (l_high < r → (limb_div_constant_evaluated l_high l_low r).isSome = true) := by
  constructor
  · intro h
    simp [limb_div_constant_evaluated, h]
  · intro h
    simp [limb_div_constant_evaluated, Nat.not_le.mpr h]

/-- Witness for C9 at `l_high = 5, l_low = 0, r = 3` (violated
precondition) and `l_high = 1, l_low = 0, r = 3` (satisfied
precondition). -/
theorem limb_div_constant_evaluated_guard_witness :
    limb_div_constant_evaluated 5 0 3 = none ∧
    (limb_div_constant_evaluated 1 0 3).isSome = true :=
  ⟨(limb_div_constant_evaluated_guard 5 0 3).1 (by decide),
   (limb_div_constant_evaluated_guard 1 0 3).2 (by decide)⟩

/-- C10: the bitmask utility's binary operators return the bitwise
AND/OR/XOR of the two operands' underlying values (stated for the model
of the evidently intended bodies, see `basic_option_and`), and a flag
test such as `Opt & right_signed_option` is non-zero exactly when that
flag's bit (bit 4) is set in `Opt`. -/
theorem basic_option_bitops_spec (a b opt : Nat) :
    basic_option_and a b = a &&& b ∧
    basic_option_or a b = a ||| b ∧
    basic_option_xor a b = a ^^^ b ∧
    (limb_span_option_flag opt right_signed_option = true ↔ opt.testBit 4 = true) := by
  refine ⟨Nat.land_comm b a, Nat.lor_comm b a, Nat.xor_comm b a, ?_⟩
  have h : right_signed_option &&& opt = (opt.testBit 4).toNat * 2 ^ 4 := by
    rw [show right_signed_option = 2 ^ 4 by decide, Nat.land_comm]
    exact Nat.and_two_pow opt 4
  rw [limb_span_option_flag, basic_option_and, basic_option_test, h]
  cases opt.testBit 4 <;> simp

/-- Exactness of the two-argument `limb_mul`. -/
theorem limb_mul_eq (l r : Nat) (hl : l < 2 ^ 64) (hr : r < 2 ^ 64) :
    (limb_mul l r).2 * 2 ^ 64 + (limb_mul l r).1 = l * r := by
  have hlr : l * r = l / 2 ^ 32 * (r / 2 ^ 32) * (2 ^ 32 * 2 ^ 32)
      + l % 2 ^ 32 * (r / 2 ^ 32) * 2 ^ 32 + l / 2 ^ 32 * (r % 2 ^ 32) * 2 ^ 32
      + l % 2 ^ 32 * (r % 2 ^ 32) := by
    conv_lhs => rw [← Nat.div_add_mod l (2 ^ 32), ← Nat.div_add_mod r (2 ^ 32)]
    ring
  have hld : l / 2 ^ 32 % 2 ^ 32 = l / 2 ^ 32 := Nat.mod_eq_of_lt (by omega)
  have hrd : r / 2 ^ 32 % 2 ^ 32 = r / 2 ^ 32 := Nat.mod_eq_of_lt (by omega)
  simp only [limb_mul, Nat.shiftRight_eq_div_pow, lor_low_high, hld, hrd]
  rw [hlr]
  generalize hA : l % 2 ^ 32 * (r % 2 ^ 32) = A
  generalize hB : l % 2 ^ 32 * (r / 2 ^ 32) = B
  generalize hC : l / 2 ^ 32 * (r % 2 ^ 32) = C
  generalize hD : l / 2 ^ 32 * (r / 2 ^ 32) = D
  have hAb : A ≤ (2 ^ 32 - 1) * (2 ^ 32 - 1) := by
    rw [← hA]; exact Nat.mul_le_mul (by omega) (by omega)
  have hBb : B ≤ (2 ^ 32 - 1) * (2 ^ 32 - 1) := by
    rw [← hB]; exact Nat.mul_le_mul (by omega) (by omega)
  have hCb : C ≤ (2 ^ 32 - 1) * (2 ^ 32 - 1) := by
    rw [← hC]; exact Nat.mul_le_mul (by omega) (by omega)
  have hDb : D ≤ (2 ^ 32 - 1) * (2 ^ 32 - 1) := by
    rw [← hD]; exact Nat.mul_le_mul (by omega) (by omega)
  omega

/-- Exactness of the one-addend `limb_mul_c`. -/
theorem limb_mul_c_eq (l r c : Nat) (hl : l < 2 ^ 64) (hr : r < 2 ^ 64)
    (hc : c < 2 ^ 64) :
    (limb_mul_c l r c).2 * 2 ^ 64 + (limb_mul_c l r c).1 = l * r + c := by
  have hlr : l * r = l / 2 ^ 32 * (r / 2 ^ 32) * (2 ^ 32 * 2 ^ 32)
      + l % 2 ^ 32 * (r / 2 ^ 32) * 2 ^ 32 + l / 2 ^ 32 * (r % 2 ^ 32) * 2 ^ 32
      + l % 2 ^ 32 * (r % 2 ^ 32) := by
    conv_lhs => rw [← Nat.div_add_mod l (2 ^ 32), ← Nat.div_add_mod r (2 ^ 32)]
    ring
  have hld : l / 2 ^ 32 % 2 ^ 32 = l / 2 ^ 32 := Nat.mod_eq_of_lt (by omega)
  have hrd : r / 2 ^ 32 % 2 ^ 32 = r / 2 ^ 32 := Nat.mod_eq_of_lt (by omega)
  have hcd : c / 2 ^ 32 % 2 ^ 32 = c / 2 ^ 32 := Nat.mod_eq_of_lt (by omega)
  simp only [limb_mul_c, Nat.shiftRight_eq_div_pow, lor_low_high, hld, hrd, hcd]
  rw [hlr]
  generalize hA : l % 2 ^ 32 * (r % 2 ^ 32) = A
  generalize hB : l % 2 ^ 32 * (r / 2 ^ 32) = B
  generalize hC : l / 2 ^ 32 * (r % 2 ^ 32) = C
  generalize hD : l / 2 ^ 32 * (r / 2 ^ 32) = D
  have hAb : A ≤ (2 ^ 32 - 1) * (2 ^ 32 - 1) := by
    rw [← hA]; exact Nat.mul_le_mul (by omega) (by omega)
  have hBb : B ≤ (2 ^ 32 - 1) * (2 ^ 32 - 1) := by
    rw [← hB]; exact Nat.mul_le_mul (by omega) (by omega)
  have hCb : C ≤ (2 ^ 32 - 1) * (2 ^ 32 - 1) := by
    rw [← hC]; exact Nat.mul_le_mul (by omega) (by omega)
  have hDb : D ≤ (2 ^ 32 - 1) * (2 ^ 32 - 1) := by
    rw [← hD]; exact Nat.mul_le_mul (by omega) (by omega)
  omega

/-- Exactness of the two-addend `limb_mul_cd`. -/
theorem limb_mul_cd_eq (l r c d : Nat) (hl : l < 2 ^ 64) (hr : r < 2 ^ 64)
    (hc : c < 2 ^ 64) (hd : d < 2 ^ 64) :
    (limb_mul_cd l r c d).2 * 2 ^ 64 + (limb_mul_cd l r c d).1 = l * r + c + d := by
  have hlr : l * r = l / 2 ^ 32 * (r / 2 ^ 32) * (2 ^ 32 * 2 ^ 32)
      + l % 2 ^ 32 * (r / 2 ^ 32) * 2 ^ 32 + l / 2 ^ 32 * (r % 2 ^ 32) * 2 ^ 32
      + l % 2 ^ 32 * (r % 2 ^ 32) := by
    conv_lhs => rw [← Nat.div_add_mod l (2 ^ 32), ← Nat.div_add_mod r (2 ^ 32)]
    ring
  have hld : l / 2 ^ 32 % 2 ^ 32 = l / 2 ^ 32 := Nat.mod_eq_of_lt (by omega)
  have hrd : r / 2 ^ 32 % 2 ^ 32 = r / 2 ^ 32 := Nat.mod_eq_of_lt (by omega)
  have hcd : c / 2 ^ 32 % 2 ^ 32 = c / 2 ^ 32 := Nat.mod_eq_of_lt (by omega)
  have hdd : d / 2 ^ 32 % 2 ^ 32 = d / 2 ^ 32 := Nat.mod_eq_of_lt (by omega)
  simp only [limb_mul_cd, Nat.shiftRight_eq_div_pow, lor_low_high, hld, hrd, hcd, hdd]
  rw [hlr]
  generalize hA : l % 2 ^ 32 * (r % 2 ^ 32) = A
  generalize hB : l % 2 ^ 32 * (r / 2 ^ 32) = B
  generalize hC : l / 2 ^ 32 * (r % 2 ^ 32) = C
  generalize hD : l / 2 ^ 32 * (r / 2 ^ 32) = D
  have hAb : A ≤ (2 ^ 32 - 1) * (2 ^ 32 - 1) := by
    rw [← hA]; exact Nat.mul_le_mul (by omega) (by omega)
  have hBb : B ≤ (2 ^ 32 - 1) * (2 ^ 32 - 1) := by
    rw [← hB]; exact Nat.mul_le_mul (by omega) (by omega)
  have hCb : C ≤ (2 ^ 32 - 1) * (2 ^ 32 - 1) := by
    rw [← hC]; exact Nat.mul_le_mul (by omega) (by omega)
  have hDb : D ≤ (2 ^ 32 - 1) * (2 ^ 32 - 1) := by
    rw [← hD]; exact Nat.mul_le_mul (by omega) (by omega)
  clear hA hB hC hD hlr hld hrd hcd hdd
  generalize hLo : (A + c % 2 ^ 32 + d % 2 ^ 32) % 2 ^ 64 = LO
  have hLo' : A + c % 2 ^ 32 + d % 2 ^ 32 = LO := by omega
  clear hLo
  generalize hM1 : (B + c / 2 ^ 32 + d / 2 ^ 32) % 2 ^ 64 = M1
  have hM1' : B + c / 2 ^ 32 + d / 2 ^ 32 = M1 := by omega
  clear hM1
  generalize hM2 : (C + LO / 2 ^ 32 + M1 % 2 ^ 32) % 2 ^ 64 = M2
  have hM2' : C + LO / 2 ^ 32 + M1 % 2 ^ 32 = M2 := by omega
  clear hM2
  generalize hHI : (D + M2 / 2 ^ 32 + M1 / 2 ^ 32) % 2 ^ 64 = HI
  have hHI' : D + M2 / 2 ^ 32 + M1 / 2 ^ 32 = HI := by omega
  clear hHI
  omega

/-- No ovefflow in the intermediate sums of `limb_mul`. -/
theorem limb_mul_sums_lt (l r : Nat) (hl : l < 2 ^ 64) (hr : r < 2 ^ 64) :
    ∀ x ∈ limb_mul_sums l r, x < 2 ^ 64 := by
  have hld : l / 2 ^ 32 % 2 ^ 32 = l / 2 ^ 32 := Nat.mod_eq_of_lt (by omega)
  have hrd : r / 2 ^ 32 % 2 ^ 32 = r / 2 ^ 32 := Nat.mod_eq_of_lt (by omega)
  simp only [limb_mul_sums, Nat.shiftRight_eq_div_pow, hld, hrd, List.mem_cons,
    List.not_mem_nil, or_false]
  generalize hA : l % 2 ^ 32 * (r % 2 ^ 32) = A
  generalize hB : l % 2 ^ 32 * (r / 2 ^ 32) = B
  generalize hC : l / 2 ^ 32 * (r % 2 ^ 32) = C
  generalize hD : l / 2 ^ 32 * (r / 2 ^ 32) = D
  have hAb : A ≤ (2 ^ 32 - 1) * (2 ^ 32 - 1) := by
    rw [← hA]; exact Nat.mul_le_mul (by omega) (by omega)
  have hBb : B ≤ (2 ^ 32 - 1) * (2 ^ 32 - 1) := by
    rw [← hB]; exact Nat.mul_le_mul (by omega) (by omega)
  have hCb : C ≤ (2 ^ 32 - 1) * (2 ^ 32 - 1) := by
    rw [← hC]; exact Nat.mul_le_mul (by omega) (by omega)
  have hDb : D ≤ (2 ^ 32 - 1) * (2 ^ 32 - 1) := by
    rw [← hD]; exact Nat.mul_le_mul (by omega) (by omega)
  intro x hx
  rcases hx with h | h | h | h <;> omega

/-- No overflow in the intermediate sums of `limb_mul_c`. -/
theorem limb_mul_c_sums_lt (l r c : Nat) (hl : l < 2 ^ 64) (hr : r < 2 ^ 64)
    (hc : c < 2 ^ 64) :
    ∀ x ∈ limb_mul_c_sums l r c, x < 2 ^ 64 := by
  have hld : l / 2 ^ 32 % 2 ^ 32 = l / 2 ^ 32 := Nat.mod_eq_of_lt (by omega)
  have hrd : r / 2 ^ 32 % 2 ^ 32 = r / 2 ^ 32 := Nat.mod_eq_of_lt (by omega)
  have hcd : c / 2 ^ 32 % 2 ^ 32 = c / 2 ^ 32 := Nat.mod_eq_of_lt (by omega)
  simp only [limb_mul_c_sums, Nat.shiftRight_eq_div_pow, hld, hrd, hcd, List.mem_cons,
    List.not_mem_nil, or_false]
  generalize hA : l % 2 ^ 32 * (r % 2 ^ 32) = A
  generalize hB : l % 2 ^ 32 * (r / 2 ^ 32) = B
  generalize hC : l / 2 ^ 32 * (r % 2 ^ 32) = C
  generalize hD : l / 2 ^ 32 * (r / 2 ^ 32) = D
  have hAb : A ≤ (2 ^ 32 - 1) * (2 ^ 32 - 1) := by
    rw [← hA]; exact Nat.mul_le_mul (by omega) (by omega)
  have hBb : B ≤ (2 ^ 32 - 1) * (2 ^ 32 - 1) := by
    rw [← hB]; exact Nat.mul_le_mul (by omega) (by omega)
  have hCb : C ≤ (2 ^ 32 - 1) * (2 ^ 32 - 1) := by
    rw [← hC]; exact Nat.mul_le_mul (by omega) (by omega)
  have hDb : D ≤ (2 ^ 32 - 1) * (2 ^ 32 - 1) := by
    rw [← hD]; exact Nat.mul_le_mul (by omega) (by omega)
  intro x hx
  rcases hx with h | h | h | h <;> omega

/-- No overflow in the intermediate sums of `limb_mul_cd`. -/
theorem limb_mul_cd_sums_lt (l r c d : Nat) (hl : l < 2 ^ 64) (hr : r < 2 ^ 64)
    (hc : c < 2 ^ 64) (hd : d < 2 ^ 64) :
    ∀ x ∈ limb_mul_cd_sums l r c d, x < 2 ^ 64 := by
  have hld : l / 2 ^ 32 % 2 ^ 32 = l / 2 ^ 32 := Nat.mod_eq_of_lt (by omega)
  have hrd : r / 2 ^ 32 % 2 ^ 32 = r / 2 ^ 32 := Nat.mod_eq_of_lt (by omega)
  have hcd : c / 2 ^ 32 % 2 ^ 32 = c / 2 ^ 32 := Nat.mod_eq_of_lt (by omega)
  have hdd : d / 2 ^ 32 % 2 ^ 32 = d / 2 ^ 32 := Nat.mod_eq_of_lt (by omega)
  simp only [limb_mul_cd_sums, Nat.shiftRight_eq_div_pow, hld, hrd, hcd, hdd,
    List.mem_cons, List.not_mem_nil, or_false]
  generalize hA : l % 2 ^ 32 * (r % 2 ^ 32) = A
  generalize hB : l % 2 ^ 32 * (r / 2 ^ 32) = B
  generalize hC : l / 2 ^ 32 * (r % 2 ^ 32) = C
  generalize hD : l / 2 ^ 32 * (r / 2 ^ 32) = D
  have hAb : A ≤ (2 ^ 32 - 1) * (2 ^ 32 - 1) := by
    rw [← hA]; exact Nat.mul_le_mul (by omega) (by omega)
  have hBb : B ≤ (2 ^ 32 - 1) * (2 ^ 32 - 1) := by
    rw [← hB]; exact Nat.mul_le_mul (by omega) (by omega)
  have hCb : C ≤ (2 ^ 32 - 1) * (2 ^ 32 - 1) := by
    rw [← hC]; exact Nat.mul_le_mul (by omega) (by omega)
  have hDb : D ≤ (2 ^ 32 - 1) * (2 ^ 32 - 1) := by
    rw [← hD]; exact Nat.mul_le_mul (by omega) (by omega)
  intro x hx
  rcases hx with h | h | h | h <;> omega

/-- C8: for all 64-bit limbs `l, r, c, d`, each of the three `limb_mul`
overloads (portable half-word path) returns `(low, high)` with
`high * 2 ^ 64 + low` equal to `l * r` plus the addends it takes, exactly;
and every intermediate 64-bit sum of the half-word computation stays below
`2 ^ 64`. -/
theorem limb_mul_spec (l r c d : Nat) (hl : l < 2 ^ 64) (hr : r < 2 ^ 64)
    (hc : c < 2 ^ 64) (hd : d < 2 ^ 64) :
    ((limb_mul l r).2 * 2 ^ 64 + (limb_mul l r).1 = l * r) ∧
    ((limb_mul_c l r c).2 * 2 ^ 64 + (limb_mul_c l r c).1 = l * r + c) ∧
    ((limb_mul_cd l r c d).2 * 2 ^ 64 + (limb_mul_cd l r c d).1 = l * r + c + d) ∧
    (∀ x ∈ limb_mul_sums l r, x < 2 ^ 64) ∧
    (∀ x ∈ limb_mul_c_sums l r c, x < 2 ^ 64) ∧
    (∀ x ∈ limb_mul_cd_sums l r c d, x < 2 ^ 64) :=
  ⟨limb_mul_eq l r hl hr, limb_mul_c_eq l r c hl hr hc,
   limb_mul_cd_eq l r c d hl hr hc hd, limb_mul_sums_lt l r hl hr,
   limb_mul_c_sums_lt l r c hl hr hc, limb_mul_cd_sums_lt l r c d hl hr hc hd⟩

/-- Witness for C8 at `l = 3, r = 7, c = 11, d = 13`. -/
theorem limb_mul_spec_witness :
    (limb_mul_cd 3 7 11 13).2 * 2 ^ 64 + (limb_mul_cd 3 7 11 13).1 = 3 * 7 + 11 + 13 :=
  (limb_mul_spec 3 7 11 13 (by decide) (by decide) (by decide) (by decide)).2.2.1

/-- `setSeq` preserves the buffer length. -/
theorem setSeq_length (vs : List Nat) : ∀ (buf : List Nat) (p : Nat),
    (setSeq buf p vs).length = buf.length := by
  induction vs with
  | nil => intro buf p; rfl
  | cons v vs ih => intro buf p; simp [setSeq, ih]

/-- A `spanWrite` whose window fits the buffer and whose values fit the
window succeeds and preserves the buffer length. -/
theorem spanWrite_some (buf : List Nat) (s : DSpan) (i : Nat) (vals : List Nat)
    (hv : s.off + s.len ≤ buf.length) (hb : i + vals.length ≤ s.len) :
    ∃ buf', spanWrite buf s i vals = some buf' ∧ buf'.length = buf.length :=
  ⟨setSeq buf (s.off + i) vals, by rw [spanWrite, if_pos ⟨hv, hb⟩],
   setSeq_length vals buf _⟩

/-- A `spanFillFrom` with a valid window and start position succeeds. -/
theorem spanFillFrom_some (buf : List Nat) (s : DSpan) (i c : Nat)
    (hv : s.off + s.len ≤ buf.length) (hb : i ≤ s.len) :
    ∃ buf', spanFillFrom buf s i c = some buf' ∧ buf'.length = buf.length := by
  rw [spanFillFrom]
  exact spanWrite_some _ _ _ _ hv (by simp; omega)

/-- `unary_unroll_helper` succeeds when the batch fits the operand, the
window and the buffer. -/
theorem unary_unroll_helper_some (f : Nat → Nat) (buf : List Nat) (s : DSpan)
    (dpos : Nat) (r : List Nat) (n : Nat) (hv : s.off + s.len ≤ buf.length)
    (hd : dpos + n ≤ s.len) (hr : n ≤ r.length) :
    ∃ buf', unary_unroll_helper f buf s dpos r n = some buf' ∧
      buf'.length = buf.length := by
  rw [unary_unroll_helper, if_pos hr]
  exact spanWrite_some _ _ _ _ hv (by simp; omega)

/-- `binary_unroll_helper` succeeds when the batch fits both operands, the
window and the buffer. -/
theorem binary_unroll_helper_some (f : Nat → Nat → Nat) (buf : List Nat) (s : DSpan)
    (dpos : Nat) (l r : List Nat) (n : Nat) (hv : s.off + s.len ≤ buf.length)
    (hd : dpos + n ≤ s.len) (hl : n ≤ l.length) (hr : n ≤ r.length) :
    ∃ buf', binary_unroll_helper f buf s dpos l r n = some buf' ∧
      buf'.length = buf.length := by
  rw [binary_unroll_helper, if_pos ⟨hl, hr⟩]
  exact spanWrite_some _ _ _ _ hv (by simp; omega)

/-- The scalar-right `binary_unroll_helper` succeeds when the batch fits
the operand, the window and the buffer. -/
theorem binary_unroll_helper_scalar_some (f : Nat → Nat → Nat) (buf : List Nat)
    (s : DSpan) (dpos : Nat) (l : List Nat) (r n : Nat)
    (hv : s.off + s.len ≤ buf.length) (hd : dpos + n ≤ s.len) (hl : n ≤ l.length) :
    ∃ buf', binary_unroll_helper_scalar f buf s dpos l r n = some buf' ∧
      buf'.length = buf.length := by
  rw [binary_unroll_helper_scalar, if_pos hl]
  exact spanWrite_some _ _ _ _ hv (by simp; omega)

/-- The fixed-chunk loop of `unary_unroll` succeeds and advances the
destination position and operand iterator by `iters * chunk`. -/
theorem unary_unroll_loop_some (chunk : Nat) (f : Nat → Nat) (s : DSpan) :
    ∀ (iters : Nat) (buf : List Nat) (dpos : Nat) (r : List Nat),
      s.off + s.len ≤ buf.length → dpos + iters * chunk ≤ s.len →
      iters * chunk ≤ r.length →
      ∃ buf', unary_unroll_loop chunk f s iters buf dpos r =
          some (buf', dpos + iters * chunk, r.drop (iters * chunk)) ∧
        buf'.length = buf.length := by
  intro iters
  induction iters with
  | zero =>
    intro buf dpos r hv h1 h2
    exact ⟨buf, by simp [unary_unroll_loop], rfl⟩
  | succ k ih =>
    intro buf dpos r hv h1 h2
    rw [Nat.succ_mul] at h1 h2 ⊢
    obtain ⟨buf1, he1, hl1⟩ := unary_unroll_helper_some f buf s dpos r chunk hv
      (by omega) (by omega)
    obtain ⟨buf2, he2, hl2⟩ := ih buf1 (dpos + chunk) (r.drop chunk)
      (by omega) (by omega) (by simp; omega)
    refine ⟨buf2, ?_, by omega⟩
    rw [unary_unroll_loop]
    rw [he1]
    rw [Option.bind_eq_bind, Option.some_bind]
    rw [he2, List.drop_drop]
    have h3 : dpos + chunk + k * chunk = dpos + (k * chunk + chunk) := by omega
    have h4 : k * chunk + chunk = chunk + k * chunk := by omega
    rw [h3, h4]

/-- The fixed-chunk loop of `binary_unroll` succeeds and advances the
destination position and both operand iterators by `iters * chunk`. -/
theorem binary_unroll_loop_some (chunk : Nat) (f : Nat → Nat → Nat) (s : DSpan) :
    ∀ (iters : Nat) (buf : List Nat) (dpos : Nat) (l r : List Nat),
      s.off + s.len ≤ buf.length → dpos + iters * chunk ≤ s.len →
      iters * chunk ≤ l.length → iters * chunk ≤ r.length →
      ∃ buf', binary_unroll_loop chunk f s iters buf dpos l r =
          some (buf', dpos + iters * chunk, l.drop (iters * chunk), r.drop (iters * chunk)) ∧
        buf'.length = buf.length := by
  intro iters
  induction iters with
  | zero =>
    intro buf dpos l r hv h1 h2 h3
    exact ⟨buf, by simp [binary_unroll_loop], rfl⟩
  | succ k ih =>
    intro buf dpos l r hv h1 h2 h3
    rw [Nat.succ_mul] at h1 h2 h3 ⊢
    obtain ⟨buf1, he1, hl1⟩ := binary_unroll_helper_some f buf s dpos l r chunk hv
      (by omega) (by omega) (by omega)
    obtain ⟨buf2, he2, hl2⟩ := ih buf1 (dpos + chunk) (l.drop chunk) (r.drop chunk)
      (by omega) (by omega) (by simp; omega) (by simp; omega)
    refine ⟨buf2, ?_, by omega⟩
    rw [binary_unroll_loop]
    rw [he1]
    rw [Option.bind_eq_bind, Option.some_bind]
    rw [he2, List.drop_drop, List.drop_drop]
    have h4 : dpos + chunk + k * chunk = dpos + (k * chunk + chunk) := by omega
    have h5 : k * chunk + chunk = chunk + k * chunk := by omega
    rw [h4, h5]

/-- The fixed-chunk loop of the scalar-right `binary_unroll` succeeds. -/
theorem binary_unroll_scalar_loop_some (chunk : Nat) (f : Nat → Nat → Nat) (s : DSpan)
    (r : Nat) :
    ∀ (iters : Nat) (buf : List Nat) (dpos : Nat) (l : List Nat),
      s.off + s.len ≤ buf.length → dpos + iters * chunk ≤ s.len →
      iters * chunk ≤ l.length →
      ∃ buf', binary_unroll_scalar_loop chunk f s r iters buf dpos l =
          some (buf', dpos + iters * chunk, l.drop (iters * chunk)) ∧
        buf'.length = buf.length := by
  intro iters
  induction iters with
  | zero =>
    intro buf dpos l hv h1 h2
    exact ⟨buf, by simp [binary_unroll_scalar_loop], rfl⟩
  | succ k ih =>
    intro buf dpos l hv h1 h2
    rw [Nat.succ_mul] at h1 h2 ⊢
    obtain ⟨buf1, he1, hl1⟩ := binary_unroll_helper_scalar_some f buf s dpos l r chunk hv
      (by omega) (by omega)
    obtain ⟨buf2, he2, hl2⟩ := ih buf1 (dpos + chunk) (l.drop chunk)
      (by omega) (by omega) (by simp; omega)
    refine ⟨buf2, ?_, by omega⟩
    rw [binary_unroll_scalar_loop]
    rw [he1]
    rw [Option.bind_eq_bind, Option.some_bind]
    rw [he2, List.drop_drop]
    have h3 : dpos + chunk + k * chunk = dpos + (k * chunk + chunk) := by omega
    have h4 : k * chunk + chunk = chunk + k * chunk := by omega
    rw [h3, h4]

/-- `unary_unroll` succeeds when `count` limbs fit the operand, the window
and the buffer. -/
theorem unary_unroll_some (f : Nat → Nat) (buf : List Nat) (s : DSpan) (r : List Nat)
    (count : Nat) (hv : s.off + s.len ≤ buf.length) (h1 : count ≤ s.len)
    (h2 : count ≤ r.length) :
    ∃ buf', unary_unroll f buf s r count = some buf' ∧ buf'.length = buf.length := by
  obtain ⟨buf1, he1, hl1⟩ := unary_unroll_loop_some 16 f s (count / 16) buf 0 r hv
    (by omega) (by omega)
  obtain ⟨buf2, he2, hl2⟩ := unary_unroll_loop_some 4 f s (count % 16 / 4) buf1
    (0 + count / 16 * 16) (r.drop (count / 16 * 16)) (by omega) (by omega)
    (by simp; omega)
  obtain ⟨buf3, he3, hl3⟩ := unary_unroll_helper_some f buf2 s
    (0 + count / 16 * 16 + count % 16 / 4 * 4)
    ((r.drop (count / 16 * 16)).drop (count % 16 / 4 * 4)) (count % 16 % 4)
    (by omega) (by omega) (by simp; omega)
  refine ⟨buf3, ?_, by omega⟩
  simp only [unary_unroll, he1, Option.bind_eq_bind, Option.some_bind, he2, he3]

/-- `binary_unroll` succeeds when `count` limbs fit both operands, the
window and the buffer. -/
theorem binary_unroll_some (f : Nat → Nat → Nat) (buf : List Nat) (s : DSpan)
    (l r : List Nat) (count : Nat) (hv : s.off + s.len ≤ buf.length)
    (h1 : count ≤ s.len) (h2 : count ≤ l.length) (h3 : count ≤ r.length) :
    ∃ buf', binary_unroll f buf s l r count = some buf' ∧ buf'.length = buf.length := by
  obtain ⟨buf1, he1, hl1⟩ := binary_unroll_loop_some 16 f s (count / 16) buf 0 l r hv
    (by omega) (by omega) (by omega)
  obtain ⟨buf2, he2, hl2⟩ := binary_unroll_loop_some 4 f s (count % 16 / 4) buf1
    (0 + count / 16 * 16) (l.drop (count / 16 * 16)) (r.drop (count / 16 * 16))
    (by omega) (by omega) (by simp; omega) (by simp; omega)
  obtain ⟨buf3, he3, hl3⟩ := binary_unroll_helper_some f buf2 s
    (0 + count / 16 * 16 + count % 16 / 4 * 4)
    ((l.drop (count / 16 * 16)).drop (count % 16 / 4 * 4))
    ((r.drop (count / 16 * 16)).drop (count % 16 / 4 * 4)) (count % 16 % 4)
    (by omega) (by omega) (by simp; omega) (by simp; omega)
  refine ⟨buf3, ?_, by omega⟩
  simp only [binary_unroll, he1, Option.bind_eq_bind, Option.some_bind, he2, he3]

/-- The scalar-right `binary_unroll` succeeds when `count` limbs fit the
operand, the window and the buffer. -/
theorem binary_unroll_scalar_some (f : Nat → Nat → Nat) (buf : List Nat) (s : DSpan)
    (l : List Nat) (r count : Nat) (hv : s.off + s.len ≤ buf.length)
    (h1 : count ≤ s.len) (h2 : count ≤ l.length) :
    ∃ buf', binary_unroll_scalar f buf s l r count = some buf' ∧
      buf'.length = buf.length := by
  obtain ⟨buf1, he1, hl1⟩ := binary_unroll_scalar_loop_some 16 f s r (count / 16) buf 0 l
    hv (by omega) (by omega)
  obtain ⟨buf2, he2, hl2⟩ := binary_unroll_scalar_loop_some 4 f s r (count % 16 / 4) buf1
    (0 + count / 16 * 16) (l.drop (count / 16 * 16)) (by omega) (by omega)
    (by simp; omega)
  obtain ⟨buf3, he3, hl3⟩ := binary_unroll_helper_scalar_some f buf2 s
    (0 + count / 16 * 16 + count % 16 / 4 * 4)
    ((l.drop (count / 16 * 16)).drop (count % 16 / 4 * 4)) r (count % 16 % 4)
    (by omega) (by omega) (by simp; omega)
  refine ⟨buf3, ?_, by omega⟩
  simp only [binary_unroll_scalar, he1, Option.bind_eq_bind, Option.some_bind, he2, he3]

/-- The `unary` engine function succeeds for every functor whenever the
destination window fits the buffer, and preserves the buffer length. -/
theorem unary_some (rs : Bool) (buf : List Nat) (s : DSpan) (r : List Nat) (f : UOp)
    (hv : s.off + s.len ≤ buf.length) :
    ∃ buf', unary rs buf s r f = some buf' ∧ buf'.length = buf.length := by
  cases f with
  | one =>
    simp only [unary]
    exact spanFillFrom_some _ _ _ _ hv (by omega)
  | zero =>
    simp only [unary]
    exact spanFillFrom_some _ _ _ _ hv (by omega)
  | neutral =>
    simp only [unary]
    exact spanWrite_some _ _ _ _ hv (by simp only [List.length_take]; omega)
  | not =>
    obtain ⟨buf1, he1, hl1⟩ := unary_unroll_some (UOp.eval .not) buf s r
      (min s.len r.length) hv (by omega) (by omega)
    by_cases hdr : s.len ≤ r.length
    · refine ⟨buf1, ?_, hl1⟩
      simp only [unary, he1, Option.bind_eq_bind, Option.some_bind, if_pos hdr]
    · obtain ⟨buf2, he2, hl2⟩ := spanFillFrom_some buf1 s r.length
        (UOp.eval .not (limb_span_sign_extension rs r)) (by omega) (by omega)
      refine ⟨buf2, ?_, by omega⟩
      simp only [unary, he1, Option.bind_eq_bind, Option.some_bind, if_neg hdr, he2]

/-- The scalar-right `binary` engine function succeeds whenever the
destination window fits the buffer, and preserves the buffer length. -/
theorem binary_scalar_some (bl ls rs : Bool) (buf : List Nat) (d : DSpan)
    (l : List Nat) (r : Nat) (f : BOp) (hv : d.off + d.len ≤ buf.length) :
    ∃ buf', binary_scalar bl ls rs buf d l r f = some buf' ∧
      buf'.length = buf.length := by
  cases rs with
  | false =>
    simp only [binary_scalar, Bool.not_false, if_pos]
    exact unary_some ls buf d l f.bind_zero hv
  | true =>
    cases bl with
    | false =>
      by_cases hr : r ≠ 0
      · simp only [binary_scalar, Bool.not_true, Bool.false_eq_true, if_false, if_pos hr]
        exact unary_some ls buf d l f.bind_one hv
      · simp only [binary_scalar, Bool.not_true, Bool.false_eq_true, if_false, if_neg hr]
        exact unary_some ls buf d l f.bind_zero hv
    | true =>
      obtain ⟨buf1, he1, hl1⟩ := binary_unroll_scalar_some f.eval buf d l r
        (min d.len l.length) hv (by omega) (by omega)
      by_cases hdl : d.len ≤ l.length
      · refine ⟨buf1, ?_, hl1⟩
        simp only [binary_scalar, Bool.not_true, Bool.false_eq_true, if_false, he1,
          Option.bind_eq_bind, Option.some_bind, if_pos hdl]
      · obtain ⟨buf2, he2, hl2⟩ := spanFillFrom_some buf1 d l.length
          (f.eval (limb_span_sign_extension ls l) r) (by omega) (by omega)
        refine ⟨buf2, ?_, by omega⟩
        simp only [binary_scalar, Bool.not_true, Bool.false_eq_true, if_false, he1,
          Option.bind_eq_bind, Option.some_bind, if_neg hdl, he2]

/-- The span-span `binary` engine function succeeds whenever the
destination window fits the buffer, and preserves the buffer length. -/
theorem binary_some (bl ls rs : Bool) (buf : List Nat) (d : DSpan) (l r : List Nat)
    (f : BOp) (hv : d.off + d.len ≤ buf.length) :
    ∃ buf', binary bl ls rs buf d l r f = some buf' ∧ buf'.length = buf.length := by
  obtain ⟨buf1, he1, hl1⟩ := binary_unroll_some f.eval buf d l r
    (min d.len (min l.length r.length)) hv (by omega) (by omega) (by omega)
  by_cases hmin : d.len ≤ min d.len (min l.length r.length)
  · refine ⟨buf1, ?_, hl1⟩
    simp only [binary, he1, Option.bind_eq_bind, Option.some_bind, if_pos hmin]
  · rcases Nat.lt_trichotomy r.length l.length with hlr | hlr | hlr
    · have hrd : r.length ≤ d.len := by omega
      obtain ⟨buf2, he2, hl2⟩ := binary_scalar_some bl ls rs buf1
        ⟨d.off + r.length, d.len - r.length⟩ (l.drop r.length)
        (limb_span_sign_extension rs r) f
        (show d.off + r.length + (d.len - r.length) ≤ buf1.length by omega)
      refine ⟨buf2, ?_, by omega⟩
      simp only [binary, he1, Option.bind_eq_bind, Option.some_bind, if_neg hmin,
        if_pos hlr, if_pos hrd, he2]
    · have hnl : ¬ r.length < l.length := by omega
      have hnr : ¬ l.length < r.length := by omega
      obtain ⟨buf2, he2, hl2⟩ := spanFillFrom_some buf1 d l.length
        (f.eval (limb_span_sign_extension ls l) (limb_span_sign_extension rs r))
        (by omega) (by omega)
      refine ⟨buf2, ?_, by omega⟩
      simp only [binary, he1, Option.bind_eq_bind, Option.some_bind, if_neg hmin,
        if_neg hnl, if_neg hnr, he2]
    · have hnl : ¬ r.length < l.length := by omega
      have hld : l.length ≤ d.len := by omega
      obtain ⟨buf2, he2, hl2⟩ := binary_scalar_some bl rs ls buf1
        ⟨d.off + l.length, d.len - l.length⟩ (r.drop l.length)
        (limb_span_sign_extension ls l) f.flip
        (show d.off + l.length + (d.len - l.length) ≤ buf1.length by omega)
      refine ⟨buf2, ?_, by omega⟩
      simp only [binary, he1, Option.bind_eq_bind, Option.some_bind, if_neg hmin,
        if_neg hnl, if_pos hlr, if_pos hld, he2]

/-- C7: for every binary functor, every combination of flags, every
destination buffer and all operand views (any lengths), the engine
completes (`some`: no destination write or operand read is out of
bounds in the checked embedding) and the final destination has exactly
its original length; likewise for every unary functor. -/
theorem limb_span_bitwise_truncation_safety :
    (∀ (f : BOp) (bl ls rs : Bool) (buf l r : List Nat),
      ∃ buf', binary_dispatch bl ls rs buf l r f = some buf' ∧
        buf'.length = buf.length) ∧
    (∀ (f : UOp) (rs : Bool) (buf r : List Nat),
      ∃ buf', unary_dispatch rs buf r f = some buf' ∧ buf'.length = buf.length) := by
  constructor
  · intro f bl ls rs buf l r
    exact binary_some bl ls rs buf ⟨0, buf.length⟩ l r f (by simp)
  · intro f rs buf r
    exact unary_some rs buf ⟨0, buf.length⟩ r f (by simp)

/-- `uvalM` of an append splits into the high part scaled past the low
part. -/
theorem uvalM_append (A B : List Nat) :
    uvalM (A ++ B) = uvalM A * 2 ^ (64 * B.length) + uvalM B := by
  induction A with
  | nil => simp [uvalM]
  | cons x A ih =>
    simp [uvalM, ih, Nat.mul_add, Nat.pow_add]
    ring

/-- The least-significant-first value equals the most-significant-first
value of the reversed list. -/
theorem uval_eq_uvalM_reverse (v : List Nat) : uval v = uvalM v.reverse := by
  induction v with
  | nil => rfl
  | cons x xs ih =>
    simp [uval, List.reverse_cons, uvalM_append, ih, uvalM]
    ring

/-- A bounded most-significant-first list's value is below `2 ^ (64 n)`. -/
theorem uvalM_lt_of_bounded (L : List Nat) (h : ∀ x ∈ L, x < 2 ^ 64) :
    uvalM L < 2 ^ (64 * L.length) := by
  induction L with
  | nil => simp [uvalM]
  | cons x xs ih =>
    have hx : x < 2 ^ 64 := h x (List.mem_cons_self x xs)
    have hxs := ih (fun y hy => h y (List.mem_cons_of_mem x hy))
    simp only [uvalM, List.length_cons]
    calc x * 2 ^ (64 * xs.length) + uvalM xs
        < x * 2 ^ (64 * xs.length) + 2 ^ (64 * xs.length) := by omega
      _ = (x + 1) * 2 ^ (64 * xs.length) := by ring
      _ ≤ 2 ^ 64 * 2 ^ (64 * xs.length) := Nat.mul_le_mul_right _ (by omega)
      _ = 2 ^ (64 * (xs.length + 1)) := by rw [← Nat.pow_add]; ring_nf

/-- A bounded view's unsigned value is below `2 ^ (64 n)`. -/
theorem uval_lt_of_bounded (v : List Nat) (h : Limbs64 v) :
    uval v < 2 ^ (64 * v.length) := by
  rw [uval_eq_uvalM_reverse, ← List.length_reverse v]
  exact uvalM_lt_of_bounded v.reverse (by simpa using h)

/-- `uval` of an append splits into the low part plus the scaled high
part. -/
theorem uval_append (A B : List Nat) :
    uval (A ++ B) = uval A + 2 ^ (64 * A.length) * uval B := by
  induction A with
  | nil => simp [uval]
  | cons x A ih =>
    have h : (2 : Nat) ^ (64 * (A.length + 1)) = 2 ^ 64 * 2 ^ (64 * A.length) := by
      rw [← Nat.pow_add]; ring_nf
    simp only [List.cons_append, List.append_eq, uval, List.length_cons, ih, h]
    ring

/-- Zero padding does not change the unsigned value. -/
theorem uval_replicate_zero (k : Nat) : uval (List.replicate k 0) = 0 := by
  induction k with
  | zero => rfl
  | succ n ih => simp [List.replicate_succ, uval, ih]

/-- All-ones padding has value `2 ^ (64 k) - 1`. -/
theorem uval_replicate_ones (k : Nat) :
    uval (List.replicate k (2 ^ 64 - 1)) = 2 ^ (64 * k) - 1 := by
  induction k with
  | zero => rfl
  | succ n ih =>
    simp only [List.replicate_succ, uval, ih]
    have h : (2 : Nat) ^ (64 * (n + 1)) = 2 ^ 64 * 2 ^ (64 * n) := by
      rw [← Nat.pow_add]; ring_nf
    have h2 : (1 : Nat) ≤ 2 ^ (64 * n) := Nat.one_le_two_pow
    omega

/-- The sign-extension word is the all-ones mask exactly when the view
denotes a negative number. -/
theorem sign_ext_eq (s : Bool) (v : List Nat) :
    limb_span_sign_extension s v = if limbsNeg s v then 2 ^ 64 - 1 else 0 := by
  cases s with
  | false => simp [limb_span_sign_extension, limbsNeg]
  | true =>
    match h : v.getLast? with
    | some x => simp [limb_span_sign_extension, limbsNeg, h]
    | none => simp [limb_span_sign_extension, limbsNeg, h]

/-- Three-way comparison of natural number casts agrees with the natural
number comparison. -/
theorem ordCmpInt_natCast (a b : Nat) : ordCmpInt (a : Int) (b : Int) = ordCmpNat a b := by
  simp only [ordCmpInt, ordCmpNat, Int.ofNat_lt]

/-- Adding a common term on the left does not change the three-way
comparison. -/
theorem ordCmpInt_add_left (c a b : Int) : ordCmpInt (c + a) (c + b) = ordCmpInt a b := by
  unfold ordCmpInt
  by_cases h1 : a < b
  · rw [if_pos h1, if_pos (by omega)]
  · rw [if_neg h1, if_neg (show ¬ c + a < c + b by omega)]
    by_cases h2 : b < a
    · rw [if_pos h2, if_pos (by omega)]
    · rw [if_neg h2, if_neg (show ¬ c + b < c + a by omega)]

/-- Inverting a three-way comparison swaps its arguments. -/
theorem ordInvert_ordCmpInt (a b : Int) : ordInvert (ordCmpInt a b) = ordCmpInt b a := by
  by_cases h1 : a < b
  · have h2 : ¬ b < a := by omega
    simp [ordCmpInt, ordInvert, h1, h2]
  · by_cases h2 : b < a
    · simp [ordCmpInt, ordInvert, h1, h2]
    · simp [ordCmpInt, ordInvert, h1, h2]

/-- `signed_limb_val` is injective on 64-bit values. -/
theorem signed_limb_val_inj (x y : Nat) (hx : x < 2 ^ 64) (hy : y < 2 ^ 64)
    (h : signed_limb_val x = signed_limb_val y) : x = y := by
  unfold signed_limb_val at h
  split at h <;> split at h <;> omega

/-- The signed reading of the all-ones mask is `-1`. -/
theorem signed_limb_val_mask : signed_limb_val (2 ^ 64 - 1) = -1 := by decide

/-- The signed reading of `0` is `0`. -/
theorem signed_limb_val_zero : signed_limb_val 0 = 0 := by decide

/-- A non-negative view's integer value is its unsigned value. -/
theorem ival_of_not_neg (s : Bool) (v : List Nat) (h : limbsNeg s v = false) :
    ival s v = (uval v : Int) := by
  simp [ival, h]

/-- A negative view's integer value is the unsigned value minus the full
power. -/
theorem ival_of_neg (s : Bool) (v : List Nat) (h : limbsNeg s v = true) :
    ival s v = (uval v : Int) - 2 ^ (64 * v.length) := by
  simp [ival, h]

/-- Negative views have negative integer value. -/
theorem ival_neg_lt (s : Bool) (v : List Nat) (h : limbsNeg s v = true)
    (hb : Limbs64 v) : ival s v < 0 := by
  rw [ival_of_neg s v h]
  have h1 := uval_lt_of_bounded v hb
  have h2 : (uval v : Int) < ((2 ^ (64 * v.length) : Nat) : Int) := by exact_mod_cast h1
  push_cast at h2
  linarith

/-- Non-negative views have non-negative integer value. -/
theorem ival_nonneg (s : Bool) (v : List Nat) (h : limbsNeg s v = false) :
    0 ≤ ival s v := by
  rw [ival_of_not_neg s v h]
  exact Int.natCast_nonneg _

/-- A differing top limb decides a scaled comparison (integer version). -/
theorem ordCmpInt_top (a b t1 t2 P : Int) (hP : 0 < P)
    (ht1 : 0 ≤ t1) (ht1P : t1 < P) (ht2 : 0 ≤ t2) (ht2P : t2 < P) (hab : a ≠ b) :
    ordCmpInt (a * P + t1) (b * P + t2) = ordCmpInt a b := by
  rcases lt_trichotomy a b with h | h | h
  · have h1 : (a + 1) * P ≤ b * P :=
      mul_le_mul_of_nonneg_right (by omega) (le_of_lt hP)
    have h2 : (a + 1) * P = a * P + P := by ring
    have key : a * P + t1 < b * P + t2 := by linarith
    unfold ordCmpInt
    rw [if_pos key, if_pos h]
  · exact absurd h hab
  · have h1 : (b + 1) * P ≤ a * P :=
      mul_le_mul_of_nonneg_right (by omega) (le_of_lt hP)
    have h2 : (b + 1) * P = b * P + P := by ring
    have key : b * P + t2 < a * P + t1 := by linarith
    have key2 : ¬ a * P + t1 < b * P + t2 := by linarith
    have h3 : ¬ a < b := by omega
    unfold ordCmpInt
    rw [if_neg key2, if_pos key, if_neg h3, if_pos h]

/-- A differing top limb decides a scaled comparison (limb version). -/
theorem ordCmpNat_top (a b t1 t2 P : Nat) (hP : 0 < P)
    (ht1P : t1 < P) (ht2P : t2 < P) (hab : a ≠ b) :
    ordCmpNat (a * P + t1) (b * P + t2) = ordCmpNat a b := by
  rcases Nat.lt_trichotomy a b with h | h | h
  · have h1 : (a + 1) * P ≤ b * P := Nat.mul_le_mul_right P (by omega)
    have h2 : (a + 1) * P = a * P + P := by ring
    have key : a * P + t1 < b * P + t2 := by omega
    unfold ordCmpNat
    rw [if_pos key, if_pos h]
  · exact absurd h hab
  · have h1 : (b + 1) * P ≤ a * P := Nat.mul_le_mul_right P (by omega)
    have h2 : (b + 1) * P = b * P + P := by ring
    have key : b * P + t2 < a * P + t1 := by omega
    have key2 : ¬ a * P + t1 < b * P + t2 := by omega
    have h3 : ¬ a < b := by omega
    unfold ordCmpNat
    rw [if_neg key2, if_pos key, if_neg h3, if_pos h]

/-- Adding a common term on the left does not change the limb
comparison. -/
theorem ordCmpNat_add_left (c a b : Nat) : ordCmpNat (c + a) (c + b) = ordCmpNat a b := by
  unfold ordCmpNat
  by_cases h1 : a < b
  · rw [if_pos h1, if_pos (by omega)]
  · rw [if_neg h1, if_neg (show ¬ c + a < c + b by omega)]
    by_cases h2 : b < a
    · rw [if_pos h2, if_pos (by omega)]
    · rw [if_neg h2, if_neg (show ¬ c + b < c + a by omega)]

/-- The pairwise most-significant-first walk computes the unsigned
comparison of the two values. -/
theorem cmpPairsU_correct : ∀ (X Y : List Nat), X.length = Y.length →
    (∀ x ∈ X, x < 2 ^ 64) → (∀ y ∈ Y, y < 2 ^ 64) →
    cmpPairsU X Y = ordCmpNat (uvalM X) (uvalM Y) := by
  intro X
  induction X with
  | nil =>
    intro Y hlen _ _
    cases Y with
    | nil => simp [cmpPairsU, ordCmpNat, uvalM]
    | cons y ys => simp at hlen
  | cons x xs ih =>
    intro Y hlen hX hY
    cases Y with
    | nil => simp at hlen
    | cons y ys =>
      have hlen' : xs.length = ys.length := by simpa using hlen
      have hx : x < 2 ^ 64 := hX x (by simp)
      have hy : y < 2 ^ 64 := hY y (by simp)
      have hxs : ∀ a ∈ xs, a < 2 ^ 64 := fun a ha => hX a (by simp [ha])
      have hys : ∀ a ∈ ys, a < 2 ^ 64 := fun a ha => hY a (by simp [ha])
      by_cases hxy : x = y
      · subst hxy
        simp only [cmpPairsU, ne_eq, not_true_eq_false, if_neg, ite_false,
          not_false_eq_true]
        rw [ih ys hlen' hxs hys]
        simp only [uvalM, hlen']
        exact (ordCmpNat_add_left _ _ _).symm
      · simp only [cmpPairsU, ne_eq, hxy, not_false_eq_true, if_pos, ite_true]
        rw [show uvalM (x :: xs) = x * 2 ^ (64 * xs.length) + uvalM xs from rfl,
          show uvalM (y :: ys) = y * 2 ^ (64 * ys.length) + uvalM ys from rfl, ← hlen']
        exact (ordCmpNat_top x y (uvalM xs) (uvalM ys) _ (Nat.pos_pow_of_pos _ (by norm_num))
          (uvalM_lt_of_bounded xs hxs)
          (by rw [hlen']; exact uvalM_lt_of_bounded ys hys) hxy).symm

/-- The constant-comparison walk is pairwise comparison against a
replicated constant. -/
theorem cmpConstU_eq (c : Nat) (X : List Nat) :
    cmpConstU c X = cmpPairsU X (List.replicate X.length c) := by
  induction X with
  | nil => rfl
  | cons x xs ih =>
    by_cases h : x = c
    · simp [cmpConstU, cmpPairsU, List.replicate_succ, h, ih]
    · simp [cmpConstU, cmpPairsU, List.replicate_succ, h]

/-- Pairwise comparison of appended lists splits at the boundary when the
high parts have equal length. -/
theorem cmpPairsU_append : ∀ (A B C D : List Nat), A.length = B.length →
    cmpPairsU (A ++ C) (B ++ D) =
      (match cmpPairsU A B with
       | .eq => cmpPairsU C D
       | o => o) := by
  intro A
  induction A with
  | nil =>
    intro B C D hlen
    cases B with
    | nil => simp [cmpPairsU]
    | cons b B => simp at hlen
  | cons a A ih =>
    intro B C D hlen
    cases B with
    | nil => simp at hlen
    | cons b B =>
      have hlen' : A.length = B.length := by simpa using hlen
      by_cases hab : a = b
      · subst hab
        simp only [List.cons_append, cmpPairsU, ne_eq, not_true_eq_false, ite_false]
        exact ih B C D hlen'
      · rcases Nat.lt_trichotomy a b with h | h | h
        · simp [cmpPairsU, hab, ordCmpNat, h]
        · exact absurd h hab
        · have h2 : ¬ a < b := by omega
          simp [cmpPairsU, hab, ordCmpNat, h, h2]

/-- The sign-extension word is itself a 64-bit limb. -/
theorem sign_ext_lt (s : Bool) (v : List Nat) : limb_span_sign_extension s v < 2 ^ 64 := by
  rw [sign_ext_eq]
  split <;> norm_num

/-- Negativity of a view with an explicit most significant limb. -/
theorem limbsNeg_concat (s : Bool) (A : List Nat) (x : Nat) :
    limbsNeg s (A ++ [x]) = (s && decide (2 ^ 63 ≤ x)) := by
  simp [limbsNeg, List.getLast?_concat]

/-- The unsigned value of a reversed list is the most-significant-first
value of the original. -/
theorem uval_reverse' (A : List Nat) : uval A.reverse = uvalM A := by
  rw [uval_eq_uvalM_reverse, List.reverse_reverse]

/-- Integer value of a view with an explicit most significant limb: the
top limb is read signed or unsigned according to the interpretation, the
rest contributes its unsigned value. -/
theorem ival_concat (s : Bool) (A : List Nat) (x : Nat) :
    ival s (A ++ [x]) =
      (if s then signed_limb_val x else (x : Int)) * 2 ^ (64 * A.length) +
        (uval A : Int) := by
  have huv : uval (A ++ [x]) = uval A + 2 ^ (64 * A.length) * x := by
    rw [uval_append]
    simp [uval]
  have hlen : (A ++ [x]).length = A.length + 1 := by simp
  cases s with
  | false =>
    rw [ival_of_not_neg false _ (by simp [limbsNeg_concat]), huv]
    push_cast
    ring
  | true =>
    by_cases hx : 2 ^ 63 ≤ x
    · have hneg : limbsNeg true (A ++ [x]) = true := by
        simp [limbsNeg_concat]; omega
      rw [ival_of_neg true _ hneg, huv, hlen]
      have hsv : signed_limb_val x = (x : Int) - 2 ^ 64 := by
        unfold signed_limb_val
        rw [if_neg (show ¬ x < 2 ^ 63 by omega)]
      rw [hsv]
      have hpow : ((2 : Int)) ^ (64 * (A.length + 1)) =
          2 ^ (64 * A.length) * 2 ^ 64 := by
        rw [← pow_add]; ring_nf
      push_cast
      rw [hpow]
      simp only [if_true]
      ring
    · have hneg : limbsNeg true (A ++ [x]) = false := by
        simp [limbsNeg_concat]; omega
      rw [ival_of_not_neg true _ hneg, huv]
      have hsv : signed_limb_val x = (x : Int) := by
        unfold signed_limb_val
        rw [if_pos (show x < 2 ^ 63 by omega)]
      rw [hsv]
      push_cast
      simp only [if_true]
      ring

/-- Padding a view with its own sign-extension word does not change its
integer value. -/
theorem ival_extend (s : Bool) (v : List Nat) (k : Nat) :
    ival s (v ++ List.replicate k (limb_span_sign_extension s v)) = ival s v := by
  cases k with
  | zero => simp
  | succ n =>
    cases hneg : limbsNeg s v with
    | false =>
      have hext : limb_span_sign_extension s v = 0 := by rw [sign_ext_eq, hneg]; rfl
      rw [hext]
      have hneg2 : limbsNeg s (v ++ List.replicate (n + 1) 0) = false := by
        rw [show List.replicate (n + 1) (0 : Nat) = List.replicate n 0 ++ [0] from
          List.replicate_succ' n 0, ← List.append_assoc, limbsNeg_concat]
        simp
      rw [ival_of_not_neg s _ hneg2, ival_of_not_neg s v hneg, uval_append,
        uval_replicate_zero]
      simp
    | true =>
      have hs : s = true := by
        cases s with
        | false => simp [limbsNeg] at hneg
        | true => rfl
      have hext : limb_span_sign_extension s v = 2 ^ 64 - 1 := by
        rw [sign_ext_eq, hneg]; rfl
      rw [hext]
      have hneg2 : limbsNeg s (v ++ List.replicate (n + 1) (2 ^ 64 - 1)) = true := by
        rw [show List.replicate (n + 1) (2 ^ 64 - 1 : Nat) =
            List.replicate n (2 ^ 64 - 1) ++ [2 ^ 64 - 1] from
          List.replicate_succ' n _, ← List.append_assoc, limbsNeg_concat, hs]
        simp
      rw [ival_of_neg s _ hneg2, ival_of_neg s v hneg, uval_append,
        uval_replicate_ones]
      have h1 : (1 : Nat) ≤ 2 ^ (64 * (n + 1)) := Nat.one_le_two_pow
      have hlen : (v ++ List.replicate (n + 1) (2 ^ 64 - 1)).length =
          v.length + (n + 1) := by simp
      rw [hlen]
      have hpow1 : ((2 : Int)) ^ (64 * (v.length + (n + 1))) =
          2 ^ (64 * v.length) * 2 ^ (64 * (n + 1)) := by
        rw [← pow_add]; ring_nf
      push_cast [h1]
      rw [hpow1]
      ring

/-- Unfolding of `compare_promoted` on the strictly-longer, left-signed
path. -/
theorem compare_promoted_longer_signed (rs : Bool) (l r : List Nat) (x : Nat)
    (ltl : List Nat) (hn0 : ¬ l.length = 0) (hlt : r.length < l.length)
    (hrev : l.reverse = x :: ltl) :
    compare_promoted true rs l r =
      (if x ≠ limb_span_sign_extension rs r then
        signedCmp x (limb_span_sign_extension rs r)
      else
        match cmpConstU (limb_span_sign_extension rs r)
            (ltl.take (l.length - r.length - 1)) with
        | .eq => cmpPairsU (ltl.drop (l.length - r.length - 1)) r.reverse
        | o => o) := by
  unfold compare_promoted
  rw [if_neg hn0, if_pos hlt, if_pos (show (true : Bool) = true from rfl), hrev]

/-- Unfolding of `compare_promoted` on the strictly-longer, left-unsigned
path. -/
theorem compare_promoted_longer_unsigned (rs : Bool) (l r : List Nat)
    (hn0 : ¬ l.length = 0) (hlt : r.length < l.length) :
    compare_promoted false rs l r =
      (match cmpConstU (limb_span_sign_extension rs r)
          (l.reverse.take (l.length - r.length)) with
      | .eq => cmpPairsU (l.reverse.drop (l.length - r.length)) r.reverse
      | o => o) := by
  unfold compare_promoted
  rw [if_neg hn0, if_pos hlt, if_neg (show ¬ (false : Bool) = true by simp)]

/-- Unfolding of `compare_promoted` on the equal-length, both-signed
path. -/
theorem compare_promoted_equal_signed (l r : List Nat) (x y : Nat)
    (ltl rtl : List Nat) (hn0 : ¬ l.length = 0) (hnlt : ¬ r.length < l.length)
    (hrevl : l.reverse = x :: ltl) (hrevr : r.reverse = y :: rtl) :
    compare_promoted true true l r =
      (if x ≠ y then signedCmp x y else cmpPairsU ltl rtl) := by
  unfold compare_promoted
  rw [if_neg hn0, if_neg hnlt, if_pos (show (true && true : Bool) = true from rfl),
    hrevl, hrevr]

/-- Unfolding of `compare_promoted` on the equal-length path when not both
operands are signed. -/
theorem compare_promoted_equal_other (ls rs : Bool) (l r : List Nat)
    (hn0 : ¬ l.length = 0) (hnlt : ¬ r.length < l.length)
    (hb : (ls && rs) = false) :
    compare_promoted ls rs l r = cmpPairsU l.reverse r.reverse := by
  unfold compare_promoted
  rw [if_neg hn0, if_neg hnlt, hb, if_neg (show ¬ (false : Bool) = true by simp)]

/-- The unsigned value of a view padded on top equals the
most-significant-first value of the reversed padded limbs. -/
theorem uval_pad_eq_uvalM (r : List Nat) (k c : Nat) :
    uval (r ++ List.replicate k c) = uvalM (List.replicate k c ++ r.reverse) := by
  rw [uval_eq_uvalM_reverse, List.reverse_append, List.reverse_replicate]

/-- The high-region walk against a constant followed by the pairwise walk
computes the unsigned comparison against the constant-padded short
operand. -/
theorem cmpConst_then_pairs (c : Nat) (X : List Nat) (k : Nat) (R : List Nat)
    (hk : k ≤ X.length) (hXR : X.length - k = R.length)
    (hX : ∀ a ∈ X, a < 2 ^ 64) (hc : c < 2 ^ 64) (hR : ∀ a ∈ R, a < 2 ^ 64) :
    (match cmpConstU c (X.take k) with
     | .eq => cmpPairsU (X.drop k) R
     | o => o) =
      ordCmpNat (uvalM X) (uvalM (List.replicate k c ++ R)) := by
  have h1 : cmpConstU c (X.take k) = cmpPairsU (X.take k) (List.replicate k c) := by
    rw [cmpConstU_eq]
    have h0 : (X.take k).length = k := by rw [List.length_take]; omega
    rw [h0]
  have h2 := cmpPairsU_append (X.take k) (List.replicate k c) (X.drop k) R
    (by simp [List.length_take]; omega)
  rw [h1, ← h2, List.take_append_drop]
  exact cmpPairsU_correct X (List.replicate k c ++ R)
    (by simp [List.length_replicate]; omega) hX
    (by intro a ha
        rcases List.mem_append.mp ha with h | h
        · rw [List.eq_of_mem_replicate h]; exact hc
        · exact hR a h)

/-- Promoted comparison computes the value ordering of the left view and
of the right view padded to the left view's length with its own
sign-extension word, both read with the promoted signedness: the left
flag when the left view is strictly longer, the conjunction of both flags
at equal stored lengths. -/
theorem compare_promoted_correct (ls rs : Bool) (l r : List Nat)
    (hlen : r.length ≤ l.length) (hl : Limbs64 l) (hr : Limbs64 r) :
    compare_promoted ls rs l r =
      ordCmpInt
        (ival (if r.length < l.length then ls else ls && rs) l)
        (ival (if r.length < l.length then ls else ls && rs)
          (r ++ List.replicate (l.length - r.length)
            (limb_span_sign_extension rs r))) := by
  by_cases hn0 : l.length = 0
  · have hle : l = [] := List.eq_nil_of_length_eq_zero hn0
    have hre : r = [] := List.eq_nil_of_length_eq_zero (by omega)
    subst hle
    subst hre
    simp [compare_promoted, ival, limbsNeg, uval, ordCmpInt]
  · have hrext_lt : limb_span_sign_extension rs r < 2 ^ 64 := sign_ext_lt rs r
    by_cases hlt : r.length < l.length
    · -- left view strictly longer
      rw [if_pos hlt]
      cases ls with
      | true =>
        obtain ⟨x, ltl, hrev⟩ : ∃ x ltl, l.reverse = x :: ltl := by
          cases hc : l.reverse with
          | nil =>
            exfalso
            apply hn0
            rw [← List.length_reverse l, hc]
            rfl
          | cons a b => exact ⟨a, b, rfl⟩
        have hlrec : l = ltl.reverse ++ [x] := by
          rw [← List.reverse_reverse l, hrev, List.reverse_cons]
        have hlenl : l.length = ltl.length + 1 := by
          have h := congrArg List.length hrev
          simpa using h
        have hx64 : x < 2 ^ 64 := hl x (by rw [hlrec]; simp)
        have hltl : ∀ a ∈ ltl, a < 2 ^ 64 := by
          intro a ha
          exact hl a (by rw [hlrec]; simp [ha])
        have hvl : ival true l =
            signed_limb_val x * 2 ^ (64 * ltl.length) + (uvalM ltl : Int) := by
          conv_lhs => rw [hlrec]
          rw [ival_concat]
          simp [uval_reverse']
        have hpadrec : r ++ List.replicate (l.length - r.length)
            (limb_span_sign_extension rs r) =
            (r ++ List.replicate (l.length - r.length - 1)
              (limb_span_sign_extension rs r)) ++ [limb_span_sign_extension rs r] := by
          rw [List.append_assoc]
          congr 1
          have hk1 : l.length - r.length = (l.length - r.length - 1) + 1 := by omega
          conv_lhs => rw [hk1]
          rw [List.replicate_succ']
        have hpadlen : (r ++ List.replicate (l.length - r.length - 1)
            (limb_span_sign_extension rs r)).length = ltl.length := by
          simp [List.length_append, List.length_replicate]
          omega
        have hvr : ival true (r ++ List.replicate (l.length - r.length)
            (limb_span_sign_extension rs r)) =
            signed_limb_val (limb_span_sign_extension rs r) * 2 ^ (64 * ltl.length) +
              (uval (r ++ List.replicate (l.length - r.length - 1)
                (limb_span_sign_extension rs r)) : Int) := by
          rw [hpadrec, ival_concat, hpadlen]
          simp
        have hpadbound : uval (r ++ List.replicate (l.length - r.length - 1)
            (limb_span_sign_extension rs r)) < 2 ^ (64 * ltl.length) := by
          have h := uval_lt_of_bounded (r ++ List.replicate (l.length - r.length - 1)
            (limb_span_sign_extension rs r))
            (by intro a ha
                rcases List.mem_append.mp ha with h | h
                · exact hr a h
                · rw [List.eq_of_mem_replicate h]; exact hrext_lt)
          rwa [hpadlen] at h
        by_cases hx : x = limb_span_sign_extension rs r
        · -- equal top limb: walk the high region, then the common region
          rw [compare_promoted_longer_signed rs l r x ltl hn0 hlt hrev,
            if_neg (by simpa using hx)]
          rw [cmpConst_then_pairs (limb_span_sign_extension rs r) ltl
            (l.length - r.length - 1) r.reverse (by omega) (by simp; omega)
            hltl hrext_lt (by simpa using hr)]
          rw [hvl, hvr, hx, ordCmpInt_add_left, ordCmpInt_natCast, uval_pad_eq_uvalM]
        · -- differing top limb decides, signed
          rw [compare_promoted_longer_signed rs l r x ltl hn0 hlt hrev,
            if_pos (by simpa using hx)]
          rw [hvl, hvr,
            ordCmpInt_top _ _ _ _ _ (by positivity) (Int.natCast_nonneg _)
              (by exact_mod_cast uvalM_lt_of_bounded ltl hltl)
              (Int.natCast_nonneg _) (by exact_mod_cast hpadbound)
              (fun h => hx (signed_limb_val_inj x _ hx64 hrext_lt h))]
          rfl
      | false =>
        rw [compare_promoted_longer_unsigned rs l r hn0 hlt]
        rw [cmpConst_then_pairs (limb_span_sign_extension rs r) l.reverse
          (l.length - r.length) r.reverse (by simp) (by simp; omega)
          (by simpa using hl) hrext_lt (by simpa using hr)]
        rw [ival_of_not_neg false l (by simp [limbsNeg]),
          ival_of_not_neg false _ (by simp [limbsNeg]),
          ordCmpInt_natCast, uval_eq_uvalM_reverse, uval_pad_eq_uvalM]
    · -- equal stored lengths
      have heq : r.length = l.length := by omega
      rw [if_neg hlt, show l.length - r.length = 0 by omega, List.replicate_zero,
        List.append_nil]
      cases hb : (ls && rs) with
      | true =>
        obtain ⟨hls, hrs⟩ : ls = true ∧ rs = true := by simpa using hb
        subst hls
        subst hrs
        have hn0r : ¬ r.length = 0 := by omega
        obtain ⟨x, ltl, hrevl⟩ : ∃ x ltl, l.reverse = x :: ltl := by
          cases hc : l.reverse with
          | nil =>
            exfalso
            apply hn0
            rw [← List.length_reverse l, hc]
            rfl
          | cons a b => exact ⟨a, b, rfl⟩
        obtain ⟨y, rtl, hrevr⟩ : ∃ y rtl, r.reverse = y :: rtl := by
          cases hc : r.reverse with
          | nil =>
            exfalso
            apply hn0r
            rw [← List.length_reverse r, hc]
            rfl
          | cons a b => exact ⟨a, b, rfl⟩
        have hlrec : l = ltl.reverse ++ [x] := by
          rw [← List.reverse_reverse l, hrevl, List.reverse_cons]
        have hrrec : r = rtl.reverse ++ [y] := by
          rw [← List.reverse_reverse r, hrevr, List.reverse_cons]
        have hlenl : l.length = ltl.length + 1 := by
          have h := congrArg List.length hrevl
          simpa using h
        have hlenr : r.length = rtl.length + 1 := by
          have h := congrArg List.length hrevr
          simpa using h
        have hlen_t : rtl.length = ltl.length := by omega
        have hx64 : x < 2 ^ 64 := hl x (by rw [hlrec]; simp)
        have hy64 : y < 2 ^ 64 := hr y (by rw [hrrec]; simp)
        have hltl : ∀ a ∈ ltl, a < 2 ^ 64 := by
          intro a ha
          exact hl a (by rw [hlrec]; simp [ha])
        have hrtl : ∀ a ∈ rtl, a < 2 ^ 64 := by
          intro a ha
          exact hr a (by rw [hrrec]; simp [ha])
        have hvl : ival true l =
            signed_limb_val x * 2 ^ (64 * ltl.length) + (uvalM ltl : Int) := by
          conv_lhs => rw [hlrec]
          rw [ival_concat]
          simp [uval_reverse']
        have hvr : ival true r =
            signed_limb_val y * 2 ^ (64 * ltl.length) + (uvalM rtl : Int) := by
          conv_lhs => rw [hrrec]
          rw [ival_concat]
          simp [uval_reverse', hlen_t]
        by_cases hxy : x = y
        · subst hxy
          rw [compare_promoted_equal_signed l r x x ltl rtl hn0 hlt hrevl hrevr,
            if_neg (by simp)]
          rw [cmpPairsU_correct ltl rtl (by omega) hltl hrtl]
          rw [hvl, hvr, ordCmpInt_add_left, ordCmpInt_natCast]
        · rw [compare_promoted_equal_signed l r x y ltl rtl hn0 hlt hrevl hrevr,
            if_pos (by simpa using hxy)]
          rw [hvl, hvr,
            ordCmpInt_top _ _ _ _ _ (by positivity) (Int.natCast_nonneg _)
              (by exact_mod_cast uvalM_lt_of_bounded ltl hltl)
              (Int.natCast_nonneg _)
              (by exact_mod_cast (hlen_t ▸ uvalM_lt_of_bounded rtl hrtl))
              (fun h => hxy (signed_limb_val_inj x y hx64 hy64 h))]
          rfl
      | false =>
        rw [compare_promoted_equal_other ls rs l r hn0 hlt hb]
        rw [cmpPairsU_correct l.reverse r.reverse (by simp [heq])
          (by simpa using hl) (by simpa using hr)]
        rw [ival_of_not_neg false l (by simp [limbsNeg]),
          ival_of_not_neg false r (by simp [limbsNeg]),
          ordCmpInt_natCast, uval_eq_uvalM_reverse, uval_eq_uvalM_reverse]

/-- Padding with at least one zero limb on top makes the integer value the
unsigned value of the original limbs, for either interpretation. -/
theorem ival_append_zeros (S : Bool) (r : List Nat) (n : Nat) :
    ival S (r ++ List.replicate (n + 1) 0) = (uval r : Int) := by
  have hneg : limbsNeg S (r ++ List.replicate (n + 1) 0) = false := by
    rw [show List.replicate (n + 1) (0 : Nat) = List.replicate n 0 ++ [0] from
      List.replicate_succ' n 0, ← List.append_assoc, limbsNeg_concat]
    simp
  rw [ival_of_not_neg _ _ hneg, uval_append, uval_replicate_zero]
  simp

/-- The internal infinite comparison (left view not shorter) computes the
true value ordering of the two views, each read under its own flag. -/
theorem compare_infinite_correct (ls rs : Bool) (l r : List Nat)
    (hlen : r.length ≤ l.length) (hl : Limbs64 l) (hr : Limbs64 r) :
    compare_infinite ls rs l r = ordCmpInt (ival ls l) (ival rs r) := by
  by_cases hsr : ls = rs
  · have h1 : compare_infinite ls rs l r = compare_promoted ls rs l r := by
      unfold compare_infinite
      rw [if_neg (not_not_intro hsr)]
    rw [h1, compare_promoted_correct ls rs l r hlen hl hr]
    subst hsr
    by_cases hlt : r.length < l.length
    · rw [if_pos hlt, ival_extend ls r (l.length - r.length)]
    · rw [if_neg hlt, Bool.and_self, show l.length - r.length = 0 by omega,
        List.replicate_zero, List.append_nil]
  · have hne : ls ≠ rs := hsr
    by_cases hext : signed_limb_val (limb_span_sign_extension ls l) =
        signed_limb_val (limb_span_sign_extension rs r)
    · -- inconclusive upfront check: both extensions must be zero
      have h1 : compare_infinite ls rs l r = compare_promoted ls rs l r := by
        unfold compare_infinite
        rw [if_pos hne, if_neg (not_not_intro hext)]
      have hLor : limbsNeg ls l = false ∨ limbsNeg rs r = false := by
        cases ls with
        | false => exact Or.inl (by simp [limbsNeg])
        | true =>
          have hrs : rs = false := by
            cases rs with
            | false => rfl
            | true => exact absurd rfl hne
          exact Or.inr (by simp [limbsNeg, hrs])
      have hboth : limbsNeg ls l = false ∧ limbsNeg rs r = false := by
        rcases hLor with h | h
        · refine ⟨h, ?_⟩
          by_contra hcon
          have hrneg : limbsNeg rs r = true := by simpa using hcon
          have e1 : limb_span_sign_extension ls l = 0 := by
            rw [sign_ext_eq, h]; rfl
          have e2 : limb_span_sign_extension rs r = 2 ^ 64 - 1 := by
            rw [sign_ext_eq, hrneg]; rfl
          rw [e1, e2, signed_limb_val_zero, signed_limb_val_mask] at hext
          exact absurd hext (by decide)
        · refine ⟨?_, h⟩
          by_contra hcon
          have hlneg : limbsNeg ls l = true := by simpa using hcon
          have e1 : limb_span_sign_extension ls l = 2 ^ 64 - 1 := by
            rw [sign_ext_eq, hlneg]; rfl
          have e2 : limb_span_sign_extension rs r = 0 := by
            rw [sign_ext_eq, h]; rfl
          rw [e1, e2, signed_limb_val_mask, signed_limb_val_zero] at hext
          exact absurd hext (by decide)
      have hext0 : limb_span_sign_extension rs r = 0 := by
        rw [sign_ext_eq, hboth.2]; rfl
      rw [h1, compare_promoted_correct ls rs l r hlen hl hr,
        ival_of_not_neg ls l hboth.1, ival_of_not_neg rs r hboth.2]
      by_cases hlt : r.length < l.length
      · rw [if_pos hlt]
        obtain ⟨m, hm⟩ : ∃ m, l.length - r.length = m + 1 :=
          ⟨l.length - r.length - 1, by omega⟩
        rw [hm, hext0, ival_append_zeros, ival_of_not_neg ls l hboth.1]
      · have hSf : (ls && rs) = false := by
          cases ls with
          | false => rfl
          | true =>
            cases rs with
            | false => rfl
            | true => exact absurd rfl hne
        rw [if_neg hlt, hSf, show l.length - r.length = 0 by omega,
          List.replicate_zero, List.append_nil, ival_of_not_neg false l (by simp [limbsNeg]),
          ival_of_not_neg false r (by simp [limbsNeg])]
    · -- decisive upfront check
      have h1 : compare_infinite ls rs l r =
          ordCmpInt (signed_limb_val (limb_span_sign_extension ls l))
            (signed_limb_val (limb_span_sign_extension rs r)) := by
        unfold compare_infinite
        rw [if_pos hne, if_pos hext]
      rw [h1]
      cases hLneg : limbsNeg ls l with
      | false =>
        cases hRneg : limbsNeg rs r with
        | false =>
          exfalso
          apply hext
          rw [sign_ext_eq, sign_ext_eq, hLneg, hRneg]
        | true =>
          have hvL : 0 ≤ ival ls l := ival_nonneg ls l hLneg
          have hvR : ival rs r < 0 := ival_neg_lt rs r hRneg hr
          have e1 : limb_span_sign_extension ls l = 0 := by
            rw [sign_ext_eq, hLneg]; rfl
          have e2 : limb_span_sign_extension rs r = 2 ^ 64 - 1 := by
            rw [sign_ext_eq, hRneg]; rfl
          rw [e1, e2, signed_limb_val_zero, signed_limb_val_mask]
          unfold ordCmpInt
          rw [if_neg (by omega), if_pos (by omega),
            if_neg (show ¬ ival ls l < ival rs r by omega),
            if_pos (show ival rs r < ival ls l by omega)]
      | true =>
        cases hRneg : limbsNeg rs r with
        | false =>
          have hvL : ival ls l < 0 := ival_neg_lt ls l hLneg hl
          have hvR : 0 ≤ ival rs r := ival_nonneg rs r hRneg
          have e1 : limb_span_sign_extension ls l = 2 ^ 64 - 1 := by
            rw [sign_ext_eq, hLneg]; rfl
          have e2 : limb_span_sign_extension rs r = 0 := by
            rw [sign_ext_eq, hRneg]; rfl
          rw [e1, e2, signed_limb_val_mask, signed_limb_val_zero]
          unfold ordCmpInt
          rw [if_pos (by omega), if_pos (show ival ls l < ival rs r by omega)]
        | true =>
          exfalso
          apply hext
          rw [sign_ext_eq, sign_ext_eq, hLneg, hRneg]

/-- C2: for all limb views (any lengths, including empty and unequal) and
every combination of the signedness flags, the public entry point
`limb_span_compare_infinite` orders the views exactly as the mathematical
order of the two represented integers, each view read as unsigned or
two's-complement signed (with infinite sign extension) per its own
flag. -/
theorem limb_span_compare_infinite_spec (ls rs : Bool) (l r : List Nat)
    (hl : Limbs64 l) (hr : Limbs64 r) :
    limb_span_compare_infinite ls rs l r = ordCmpInt (ival ls l) (ival rs r) := by
  unfold limb_span_compare_infinite
  by_cases h : r.length ≤ l.length
  · rw [if_pos h, compare_infinite_correct ls rs l r h hl hr]
  · rw [if_neg h, compare_infinite_correct rs ls r l (by omega) hr hl,
      ordInvert_ordCmpInt]

/-- Witness for C2 at the promoted-vs-infinite divergence inputs: left
`[0xFFFFFFFFFFFFFFFF]` signed, right `[0, 1]` unsigned. -/
theorem limb_span_compare_infinite_spec_witness :
    limb_span_compare_infinite true false [2 ^ 64 - 1] [0, 1] =
      ordCmpInt (ival true [2 ^ 64 - 1]) (ival false [0, 1]) :=
  limb_span_compare_infinite_spec true false [2 ^ 64 - 1] [0, 1]
    (by intro x hx; simp at hx; omega) (by intro x hx; simp at hx; omega)
